import Mathlib

/-
Verification of the pysuccinct library against its specification.

The Python sources are shallowly embedded: bit vectors become `List Bool`
(with `true` = '1' = '(' and `false` = '0' = ')'), texts become `List Char`
or `List Nat`, methods that can raise become `Option`/`Except`-valued
functions, and loops that are not structurally recursive take an explicit
fuel argument chosen large enough at every call site (lemmas discharge the
fuel bound).  Each definition carries a comment naming the Python function
it embeds.
-/

set_option maxRecDepth 10000

namespace BV

/-- Embeds the slice comparison `self[idx:idx + len(p)] == p` used by
`BitVector.rank` and `BitVector.select` in src/test/bitvector.py.  Python
slices clamp at the end of the string, and so do `drop`/`take`. -/
def matchAt (bits p : List Bool) (idx : Nat) : Bool :=
  decide ((bits.drop idx).take p.length = p)

/-- Embeds the sum computed by `BitVector.rank` (src/test/bitvector.py):
the number of indices `idx in range(i + 1)` where pattern `p` matches. -/
def rankCount (bits p : List Bool) (i : Nat) : Nat :=
  (List.range (i + 1)).countP (matchAt bits p)

/-- Embeds `BitVector.rank` including its `_checkindex` guard: `IndexError`
(`none`) when `i` is not in `[0, len)`.  The `_checkpattern` guard cannot
fail here because patterns are bit lists by construction. -/
def rank (bits p : List Bool) (i : Nat) : Option Nat :=
  if i < bits.length then some (rankCount bits p i) else none

/-- Embeds the scanning loop of `BitVector.select`: walk `idx` upward,
decrement the counter at each match, and answer the position at which the
counter reaches zero.  The fuel argument stands for the remaining loop
iterations of `for idx in range(len(self))`. -/
def selectGo (bits p : List Bool) : Nat → Nat → Nat → Option Nat
  | 0, _, _ => none
  | fuel + 1, idx, cnt =>
    if matchAt bits p idx then
      if cnt = 1 then some idx else selectGo bits p fuel (idx + 1) (cnt - 1)
    else selectGo bits p fuel (idx + 1) cnt

/-- Embeds `BitVector.select` including its `_checkcount` guard: `ValueError`
(`none`) when `k <= 0` or `k > len(self)`; the scan itself also raises
(`none`) when fewer than `k` occurrences exist. -/
def select (bits p : List Bool) (k : Nat) : Option Nat :=
  if k = 0 ∨ bits.length < k then none
  else selectGo bits p bits.length 0 k

/-- The number of occurrences of pattern `p` in the vector: the count of all
match positions, i.e. `rank(p, len - 1)` for a nonempty vector. -/
def occCount (bits p : List Bool) : Nat :=
  (List.range bits.length).countP (matchAt bits p)

end BV

namespace PyOps

/-- One call to the public interface of the test `BitVector`
(src/succinct/bitvector.py declares append/extend/rank/select, and
src/test/bitvector.py adds len/getitem and implements the rest). -/
inductive Op where
  | append (b : Bool)
  | extend (bs : List Bool)
  | lengthOf
  | getitem (i : Nat)
  | rankOf (p : List Bool) (i : Nat)
  | selectOf (p : List Bool) (k : Nat)

/-- Effect of one interface call on the stored bit string `self.bits`:
`append` executes `self.bits += bit` and `extend` repeats it; the bodies of
`__len__`, `__getitem__`, `rank` and `select` contain no assignment to
`self`, so they leave the state unchanged. -/
def step (bits : List Bool) : Op → List Bool
  | .append b => bits ++ [b]
  | .extend bs => bits ++ bs
  | _ => bits

/-- Run a sequence of interface calls against a constructed vector. -/
def run (bits : List Bool) (ops : List Op) : List Bool :=
  ops.foldl step bits

/-- True for the two interface operations that reassign `self.bits`. -/
def mutating : Op → Bool
  | .append _ => true
  | .extend _ => true
  | _ => false

end PyOps

namespace PyJson

/-- Truncation toward zero, the behaviour of Python `int()` on a float.
Floats that occur in jq queries are modelled as rationals (every float
literal is a dyadic rational, represented exactly). -/
def pytrunc (q : ℚ) : ℤ :=
  if 0 ≤ q then ⌊q⌋ else ⌈q⌉

/-- Embeds `mkint` of `Query.execute.indexer` (src/succinct/json.py) for a
float index expression: `idx = float(...)`; when `idx.is_integer()` is false
the code executes `idx = int(idx) + 1`.  (`q.den = 1` is exactly
`is_integer`; for an integral float the value passes through unchanged.) -/
def mkintFloat (q : ℚ) : ℤ :=
  if q.den = 1 then pytrunc q else pytrunc q + 1

end PyJson

namespace Succinct

/-- Character of the parenthesis string at index `i`, `true` = '('.
Out-of-range reads default to `false`; every call site below stays in
range, where Python would raise `IndexError`. -/
def paren (s : List Bool) (i : Nat) : Bool :=
  s.getD i false

/-- Embeds `BalancedParentheses.excess` (src/succinct/encoding.py):
`2 * rank('(', i) - (i + 1)`.  `rank` delegates to the bit vector
(in range at every use below). -/
def excess (s : List Bool) (i : Nat) : ℤ :=
  2 * (BV.rankCount s [true] i : ℤ) - (i + 1)

/-- Signed contribution of one parenthesis to the running excess. -/
def delta (b : Bool) : ℤ :=
  if b then 1 else -1

/-- Prefix-sum view of the excess: `E s k` is the excess of the first `k`
characters, so `E s 0 = 0` and `excess s i = E s (i + 1)` for `i < len`. -/
def E (s : List Bool) (k : Nat) : ℤ :=
  ((s.take k).map delta).sum

/-- Embeds the generator scan of `fwdsearch` (src/test/encoding.py): the
first `j` at or after `lo` (and below `len`) whose excess equals `tgt`.
The fuel stands for the remaining iterations of `range(i + 1, len)`. -/
def scanFwd (s : List Bool) (tgt : ℤ) : Nat → Nat → Option Nat
  | 0, _ => none
  | fuel + 1, j =>
    if j < s.length then
      if excess s j = tgt then some j else scanFwd s tgt fuel (j + 1)
    else none

/-- Embeds `fwdsearch(i, d)` of the test `BalancedParentheses`:
`tgt = d + (0 if i == -1 else excess(i))`, then scan `j in
range(i + 1, len)`; `none` is the `ValueError`. -/
def fwdsearch (s : List Bool) (i : ℤ) (d : ℤ) : Option Nat :=
  scanFwd s (d + (if i = -1 then 0 else excess s i.toNat)) s.length (i + 1).toNat

/-- Embeds the backward generator scan of `bwdsearch`: the greatest
`j < i` with excess `tgt` (the argument is the exclusive upper bound;
the scan visits `i - 1, ..., 0`). -/
def scanBwd (s : List Bool) (tgt : ℤ) : Nat → Option Nat
  | 0 => none
  | j + 1 => if excess s j = tgt then some j else scanBwd s tgt j

/-- Embeds `bwdsearch(i, d)`: `tgt = d + (0 if i == len(self) else
excess(i))`, scan `reversed(range(i))`, with the special case that an
empty scan answers `-1` when `tgt == 0` (the convention `excess(-1) = 0`)
and raises (`none`) otherwise. -/
def bwdsearch (s : List Bool) (i : ℤ) (d : ℤ) : Option ℤ :=
  match scanBwd s (d + (if i = (s.length : ℤ) then 0 else excess s i.toNat)) i.toNat with
  | some j => some (j : ℤ)
  | none =>
    if d + (if i = (s.length : ℤ) then 0 else excess s i.toNat) = 0 then some (-1)
    else none

/-- Embeds `close(i)` (src/succinct/encoding.py): requires `self[i] == '('`
(`ValueError` otherwise), then `fwdsearch(i, -1)`. -/
def close (s : List Bool) (i : Nat) : Option Nat :=
  if paren s i then fwdsearch s i (-1) else none

/-- Embeds `open(i)`: requires `self[i] == ')'`, then `bwdsearch(i, 0) + 1`.
The result of `bwdsearch` is at least `-1`, so the successor is a `Nat`. -/
def openAt (s : List Bool) (i : Nat) : Option Nat :=
  if paren s i then none
  else (bwdsearch s i 0).map (fun z => (z + 1).toNat)

/-- Embeds `enclose(i)`: rejects the first and last positions, converts a
closing position to its opener via `open`, then `bwdsearch(i, -2) + 1`. -/
def enclose (s : List Bool) (i : Nat) : Option Nat :=
  if i = 0 ∨ i = s.length - 1 then none
  else
    match (if paren s i then some i else openAt s i) with
    | none => none
    | some j => (bwdsearch s j (-2)).map (fun z => (z + 1).toNat)

/-- Leftmost minimum of a list: embeds the forward scan of `argmin`
(src/test/encoding.py), which keeps the first strictly smaller value.
`cur` is the index of the next element, `best`/`bv` the current winner. -/
def argminGo : List ℤ → Nat → Nat → ℤ → Nat
  | [], _, best, _ => best
  | v :: rest, cur, best, bv =>
    if v < bv then argminGo rest (cur + 1) cur v
    else argminGo rest (cur + 1) best bv

/-- Embeds `argmin`: `ValueError` (`none`) on the empty sequence. -/
def argmin : List ℤ → Option Nat
  | [] => none
  | v :: rest => some (argminGo rest 1 0 v)

/-- Minimum value of a list, as computed by Python `min` on a nonempty
list (the `[]` case is unreachable at call sites, guarded by
`_checkrange`). -/
def lmin : List ℤ → ℤ
  | [] => 0
  | v :: rest => rest.foldl min v

/-- The list `[excess(i), ..., excess(j)]` materialised by the range
queries of the test `BalancedParentheses`. -/
def excList (s : List Bool) (i j : Nat) : List ℤ :=
  (List.range' i (j + 1 - i)).map (excess s)

/-- Embeds `_checkrange(i, j)`: `IndexError` when an index is out of
`[0, len)` and `ValueError` when `i > j` (negative indices cannot arise
with `Nat`). -/
def checkrange (s : List Bool) (i j : Nat) : Bool :=
  decide (i < s.length) && decide (j < s.length) && decide (i ≤ j)

/-- Embeds `firstmin(i, j)`: `i + argmin(excess(i) ... excess(j))`. -/
def firstmin (s : List Bool) (i j : Nat) : Option Nat :=
  if checkrange s i j then (argmin (excList s i j)).map (fun r => i + r)
  else none

/-- Embeds `countmin(i, j)`: the number of positions in `[i, j]` attaining
the minimum excess. -/
def countmin (s : List Bool) (i j : Nat) : Option Nat :=
  if checkrange s i j then
    some ((excList s i j).count (lmin (excList s i j)))
  else none

/-- Embeds the scan of `selectmin`: enumerate the excess list from index
`cur`, decrement the (integer) counter at each minimum, and answer where
the counter reaches zero; falling off the end raises (`none`). -/
def kthMin (m : ℤ) : List ℤ → ℤ → Nat → Option Nat
  | [], _, _ => none
  | v :: rest, cnt, cur =>
    if v = m then
      if cnt - 1 = 0 then some cur else kthMin m rest (cnt - 1) (cur + 1)
    else kthMin m rest cnt (cur + 1)

/-- Embeds `selectmin(i, j, k)`: the position of the `k`-th (1-indexed)
minimum of the excess over `[i, j]`. -/
def selectmin (s : List Bool) (i j : Nat) (k : ℤ) : Option Nat :=
  if checkrange s i j then
    kthMin (lmin (excList s i j)) (excList s i j) k i
  else none

/-- Embeds `_balanced` (src/succinct/encoding.py) faithfully, including the
redundant step condition and the nested matching checks; a `ValueError`
raised by `close` inside the scan also makes the constructor fail, which
this boolean folds into `false`. -/
def balancedB (s : List Bool) : Bool :=
  let n := s.length
  decide (n ≠ 0) && decide (n % 2 = 0) &&
  (s.head? == some true) && (s.getLast? == some false) &&
  (List.range n).all (fun i => decide (0 ≤ excess s i)) &&
  decide (excess s (n - 1) = 0) &&
  (List.range n).all (fun i =>
    decide (i = 0) || decide ((excess s i - excess s (i - 1)).natAbs = 1)) &&
  (List.range n).all (fun i =>
    if paren s i then
      match close s i with
      | none => false
      | some c =>
        decide (i < c) && decide (excess s c = excess s i - 1) &&
        (List.range' (i + 1) (c - (i + 1))).all (fun m =>
          if paren s m then
            match close s m with
            | none => false
            | some cm => decide (cm < c) && decide (excess s i ≤ excess s m)
          else true)
    else true)

/-- A balanced-parentheses sequence that encodes a single ordinal tree (the
Navigator's intended domain): the constructor accepts it and the opening
parenthesis of position 0 matches the final position, so the tree has one
root. -/
def isTree (s : List Bool) : Prop :=
  balancedB s = true ∧ close s 0 = some (s.length - 1)

/-- Embeds `Node.isleaf` (src/succinct/tree.py): `enc[pos + 1] == ')'`.
For a valid node of a balanced sequence `pos + 1` is in range. -/
def isleafB (s : List Bool) (pos : Nat) : Bool :=
  s.get? (pos + 1) == some false

/-- Embeds `Node.isancestor`: `self.pos <= n.pos and n.pos < close(self.pos)`,
with Python short-circuiting (the `close` call, which can raise, only
happens when `self.pos <= n.pos`). -/
def isancestorB (s : List Bool) (a b : Nat) : Except Unit Bool :=
  if a ≤ b then
    match close s a with
    | some c => .ok (decide (b < c))
    | none => .error ()
  else .ok false

/-- Embeds `Node.parent`: `None` at the root, otherwise
`node(enclose(pos))` where `node` re-checks that the position holds '('. -/
def parent (s : List Bool) (pos : Nat) : Except Unit (Option Nat) :=
  if pos = 0 then .ok none
  else
    match enclose s pos with
    | none => .error ()
    | some g => if paren s g then .ok (some g) else .error ()

/-- Embeds `Node.degree`: 0 for a leaf, otherwise
`countmin(pos + 1, close(pos) - 1)`. -/
def degree (s : List Bool) (pos : Nat) : Option Nat :=
  if isleafB s pos then some 0
  else
    match close s pos with
    | none => none
    | some c => countmin s (pos + 1) (c - 1)

/-- Embeds `Node.child(k)`: `IndexError` when `k >= degree`; the first
child sits at `pos + 1`; child `k >= 1` sits at
`1 + selectmin(pos + 1, close(pos) - 1, k)`; `node` checks for '('. -/
def child (s : List Bool) (pos k : Nat) : Except Unit Nat :=
  match degree s pos with
  | none => .error ()
  | some deg =>
    if deg ≤ k then .error ()
    else if k = 0 then
      if paren s (pos + 1) then .ok (pos + 1) else .error ()
    else
      match close s pos with
      | none => .error ()
      | some c =>
        match selectmin s (pos + 1) (c - 1) (k : ℤ) with
        | none => .error ()
        | some x => if paren s (1 + x) then .ok (1 + x) else .error ()

/-- Embeds `Node.lca`: answer an ancestor endpoint when one encloses the
other, otherwise `node(1 + firstmin(min(pos, n.pos), max(pos, n.pos)))
.parent()`; the `node` call checks for '(', exceptions propagate, and
`parent` may answer `None` (the second `Option` layer). -/
def lca (s : List Bool) (a b : Nat) : Except Unit (Option Nat) :=
  match isancestorB s a b with
  | .error e => .error e
  | .ok true => .ok (some a)
  | .ok false =>
    match isancestorB s b a with
    | .error e => .error e
    | .ok true => .ok (some b)
    | .ok false =>
      match firstmin s (min a b) (max a b) with
      | none => .error ()
      | some m =>
        if paren s (1 + m) then parent s (1 + m) else .error ()

end Succinct

namespace Wave

/-- Binary digits of a positive number, most significant first: the
digits of `bin(n)[2:]`.  The fuel equals the first argument at every
call site, which is enough since the value halves at each step. -/
def binCore : Nat → Nat → List Bool
  | 0, _ => []
  | _ + 1, 0 => []
  | fuel + 1, n + 1 => binCore fuel ((n + 1) / 2) ++ [decide ((n + 1) % 2 = 1)]

/-- Embeds Python `bin(n)[2:]`: `"0"` for zero, no leading zeros otherwise. -/
def pyBin (n : Nat) : List Bool :=
  if n = 0 then [false] else binCore n n

/-- Embeds `str.zfill(7)`: left-pad with '0' to length 7. -/
def zfill7 (l : List Bool) : List Bool :=
  List.replicate (7 - l.length) false ++ l

/-- Embeds `ASCIICodec.encode` (src/succinct/wavelet.py):
`bin(ord(sym))[2:].zfill(7)`. -/
def asciiEncode (c : Char) : List Bool :=
  zfill7 (pyBin c.toNat)

/-- A node of the test `WaveletTree` (src/test/wavelet.py): a bit vector
and the two optional children `children['0']`/`children['1']`. -/
inductive WNode where
  | mk (bv : List Bool) (left right : Option WNode)

/-- Bit vector of a wavelet node. -/
def bvOf : WNode → List Bool
  | .mk bv _ _ => bv

/-- Embeds the per-symbol loop of `WaveletTree.__init__`: walk the code
from the root, append the bit to each visited node's vector, and descend
into (creating on demand) the corresponding child. -/
def insert (w : Option WNode) (code : List Bool) : WNode :=
  match code with
  | [] => w.getD (.mk [] none none)
  | bit :: rest =>
    match w.getD (.mk [] none none) with
    | .mk bv l r =>
      if bit then .mk (bv ++ [bit]) l (some (insert r rest))
      else .mk (bv ++ [bit]) (some (insert l rest)) r

/-- Embeds `WaveletTree.__init__` over a text with the default
`ASCIICodec`. -/
def build (text : List Char) : WNode :=
  text.foldl (fun root sym => insert (some root) (asciiEncode sym)) (.mk [] none none)

/-- Embeds the descent loop of `WaveletTree.__getitem__`: while the node
has a nonempty vector, read `bit = bv[idx]`, append it to the code, set
`idx = bv.rank(bit, idx) - 1` and descend to `children[bit]`.  The fuel
exceeds the tree depth at every call site. -/
def access : Nat → WNode → Nat → List Bool
  | 0, _, _ => []
  | fuel + 1, .mk bv l r, idx =>
    if bv = [] then []
    else
      let bit := bv.getD idx false
      bit :: (match (if bit then r else l) with
              | some cd => access fuel cd (BV.rankCount bv [bit] idx - 1)
              | none => [])

/-- A dynamically typed Python value reaching `codec.decode`: either a
string of bits or an integer. -/
inductive PyVal where
  | pystr (s : List Bool)
  | pyint (n : Nat)

/-- Value of a bit string read as a base-2 numeral (`int(code, 2)`). -/
def pyIntOfBits (l : List Bool) : Nat :=
  l.foldl (fun a b => 2 * a + (if b then 1 else 0)) 0

/-- Embeds `ASCIICodec.decode`: `chr(int(code, 2))`.  `int(x, 2)` demands
a string first argument; handing it an integer raises
`TypeError: int() can't convert non-string with explicit base`. -/
def asciiDecode : PyVal → Except String Char
  | .pystr s => .ok (Char.ofNat (pyIntOfBits s))
  | .pyint _ => .error "TypeError"

/-- Embeds `WaveletTree.__getitem__` at a non-negative index: after the
index check, the walk collects `code` and the method returns
`self.codec.decode(int(''.join(code), 2))` — the decoder receives the
*integer* value of the code, not the code string. -/
def getitem (text : List Char) (idx : Nat) : Except String Char :=
  let root := build text
  if idx < (bvOf root).length then
    asciiDecode (.pyint (pyIntOfBits (access 64 root idx)))
  else .error "IndexError"

end Wave

namespace Index

/-- Python string comparison `a < b`: lexicographic on code points, a
strict prefix compares smaller. -/
def pyStrLt : List Char → List Char → Bool
  | [], [] => false
  | [], _ :: _ => true
  | _ :: _, [] => false
  | x :: xs, y :: ys =>
    if x.toNat < y.toNat then true
    else if y.toNat < x.toNat then false
    else pyStrLt xs ys

/-- Python tuple comparison for `(suffix, offset)` pairs as used by
`sorted(suffixes)`; offsets break (impossible) ties. -/
def pairLe (p q : List Char × Nat) : Bool :=
  if p.1 = q.1 then p.2 ≤ q.2 else pyStrLt p.1 q.1

/-- Insert into a sorted list of suffix pairs. -/
def insPair (p : List Char × Nat) : List (List Char × Nat) → List (List Char × Nat)
  | [] => [p]
  | q :: rest => if pairLe p q then p :: q :: rest else q :: insPair p rest

/-- Stable sort of the suffix pairs, the effect of Python `sorted`. -/
def sortPairs (l : List (List Char × Nat)) : List (List Char × Nat) :=
  l.foldr insPair []

/-- The suffix/offset pairs `(text[i:], i)` of `SA.build` and `CSA.build`
(src/test/index.py). -/
def suffixes (text : List Char) : List (List Char × Nat) :=
  (List.range text.length).map (fun i => (text.drop i, i))

/-- The suffix array of `SA.build`: offsets of the sorted suffixes. -/
def saArray (text : List Char) : List Nat :=
  (sortPairs (suffixes text)).map (fun p => p.2)

/-- Embeds the first binary-search loop of `SA._search` (leftmost suffix
at least the pattern); fuel bounds the iterations of `while sp < st`. -/
def searchLo (text : List Char) (array : List Nat) (value : List Char) :
    Nat → ℤ → ℤ → ℤ
  | 0, sp, _ => sp
  | fuel + 1, sp, st =>
    if sp < st then
      let idx := Int.fdiv (sp + st) 2
      let off := array.getD idx.toNat 0
      let sub := (text.drop off).take value.length
      if pyStrLt sub value then searchLo text array value fuel (idx + 1) st
      else searchLo text array value fuel sp idx
    else sp

/-- Embeds the second binary-search loop of `SA._search` (rightmost suffix
equal to the pattern); `(ep + et) // 2 + ((ep + et) & 1)` uses Python
floor division and bitwise-and, i.e. `fdiv`/`emod`. -/
def searchHi (text : List Char) (array : List Nat) (value : List Char) :
    Nat → ℤ → ℤ → ℤ
  | 0, ep, _ => ep
  | fuel + 1, ep, et =>
    if ep < et then
      let idx := Int.fdiv (ep + et) 2 + Int.emod (ep + et) 2
      let off := array.getD idx.toNat 0
      let sub := (text.drop off).take value.length
      if sub = value then searchHi text array value fuel idx et
      else searchHi text array value fuel ep (idx - 1)
    else ep

/-- Embeds `SA._search`: the empty pattern short-circuits to
`(0, len(self) + 1)`; otherwise the two binary searches run over the
suffix array.  The interval shrinks every iteration, so fuel
`2 * len + 2` is never exhausted. -/
def saSearch (text value : List Char) : ℤ × ℤ :=
  if value = [] then (0, (text.length : ℤ) + 1)
  else
    let array := saArray text
    let n : ℤ := text.length
    let fuel := 2 * text.length + 2
    let sp := searchLo text array value fuel 0 (n - 1)
    let ep := searchHi text array value fuel (sp - 1) (n - 1)
    (sp, ep)

/-- Embeds `SA.count`: `end - start + 1` over the searched range. -/
def saCount (text value : List Char) : ℤ :=
  let pr := saSearch text value
  pr.2 - pr.1 + 1

/-- Reference count: the number of positions `i` of the text at which the
pattern occurs, `i` ranging over `[0, len]` — for a nonempty pattern these
are exactly the match offsets, and for the empty pattern this is
`len + 1`, the value of Python `text.count('')` that `SA.count`'s comment
promises to match. -/
def naiveCount (text p : List Char) : Nat :=
  (List.range (text.length + 1)).countP (fun i => (text.drop i).take p.length == p)

/-- Replace-or-add update of the ordered-map model for `CSA.offsets`. -/
def alSet (m : List (Char × (ℤ × ℤ))) (k : Char) (v : ℤ × ℤ) :
    List (Char × (ℤ × ℤ)) :=
  match m with
  | [] => [(k, v)]
  | (k2, v2) :: rest => if k2 = k then (k, v) :: rest else (k2, v2) :: alSet rest k v

/-- Embeds the construction loop of `CSA.build`: for each sorted suffix,
record its predecessor character (`''`, i.e. `none`, at offset 0) and
maintain the half-open range of first characters; a range is closed when
the first character changes (`if prv:` is always true of a tuple). -/
def csaBuildGo (text : List Char) (n : ℤ) :
    List (List Char × Nat) → ℤ → Option Char →
    List (Char × (ℤ × ℤ)) → List (Option Char) →
    List (Char × (ℤ × ℤ)) × List (Option Char)
  | [], _, _, offs, preds => (offs, preds)
  | (sfx, off) :: rest, idx, p, offs, preds =>
    let pred : Option Char := if off = 0 then none else some (text.getD (off - 1) 'a')
    let preds2 := preds ++ [pred]
    let c := sfx.headD 'a'
    if some c ≠ p then
      let offs2 :=
        match p with
        | none => offs
        | some pc =>
          match offs.lookup pc with
          | none => offs
          | some prv => alSet offs pc (prv.1, idx)
      csaBuildGo text n rest (idx + 1) (some c) (alSet offs2 c (idx, n)) preds2
    else
      csaBuildGo text n rest (idx + 1) p offs preds2

/-- Embeds `CSA.build`: offsets map and predecessor (BWT) sequence from the
sorted suffixes.  Suffixes are nonempty, so `c = sfx[0]` always exists. -/
def csaBuild (text : List Char) :
    List (Char × (ℤ × ℤ)) × List (Option Char) :=
  csaBuildGo text text.length (sortPairs (suffixes text)) 0 none [] []

/-- Python slice `l[:i]` for a possibly negative bound. -/
def pySliceTo (l : List (Option Char)) (i : ℤ) : List (Option Char) :=
  if 0 ≤ i then l.take i.toNat else l.take ((l.length : ℤ) + i).toNat

/-- Python slice `l[i:]` for a possibly negative bound. -/
def pySliceFrom (l : List (Option Char)) (i : ℤ) : List (Option Char) :=
  if 0 ≤ i then l.drop i.toNat else l.drop ((l.length : ℤ) + i).toNat

/-- Embeds the backward-search loop of `CSA.count` over the reversed
pattern indices: look up the range of the current character (`KeyError`
answers 0, the `none` case), shift it by the carried corrections, and
count the preceding pattern character in the BWT prefix and suffix. -/
def csaLoop (offs : List (Char × (ℤ × ℤ))) (preds : List (Option Char))
    (value : List Char) :
    List Nat → ℤ × ℤ × ℤ × ℤ → Option (ℤ × ℤ)
  | [], state => some (state.1, state.2.1)
  | idx :: rest, (_, _, soff, eoff) =>
    let c := value.getD idx 'a'
    let p : Option Char := if idx = 0 then none else some (value.getD (idx - 1) 'a')
    match offs.lookup c with
    | none => none
    | some se =>
      let s := se.1 + soff
      let e := se.2 - eoff
      let soff2 : ℤ := (pySliceTo preds s).count p
      let eoff2 : ℤ := (pySliceFrom preds e).count p
      csaLoop offs preds value rest (s, e, soff2, eoff2)

/-- Embeds `CSA.count`: the empty pattern answers `len + 1`; otherwise run
the backward search and answer `e - s` (0 on a `KeyError`). -/
def csaCount (text value : List Char) : ℤ :=
  let built := csaBuild text
  if value = [] then (built.2.length : ℤ) + 1
  else
    match csaLoop built.1 built.2 value ((List.range value.length).reverse) (1, 0, 0, 0) with
    | none => 0
    | some pr => pr.2 - pr.1

end Index

namespace PyJsonLoad

/-- The six structural tokens recognised by `Document._loads`
(src/succinct/json.py). -/
def structuralTok (c : Char) : Bool :=
  c = '[' || c = '{' || c = '}' || c = ']' || c = ':' || c = ','

/-- Embeds the inner string loop of `_loads`: starting at the opening
quote with `escaped = True`, emit one `pos` zero per consumed byte until
an unescaped closing quote; exhausting the input raises
`ValueError('malformed json')`.  Answers the remaining input and the
number of zeros emitted. -/
def eatStr : Char → Bool → List Char → Except String (List Char × Nat)
  | c, esc, rest =>
    if esc || c ≠ '"' then
      match rest with
      | [] => .error "malformed json"
      | c2 :: rest2 => (eatStr c2 (c2 = '\\') rest2).map (fun pr => (pr.1, pr.2 + 1))
    else .ok (rest, 1)

/-- Embeds the tokenizer loop of `_loads`: brackets append "11"/"00" to
the skeleton, separators append "01", strings and all other bytes append
nothing.  The fuel dominates the number of loop iterations (each consumes
at least one byte). -/
def tokenizeGo : Nat → List Char → List Bool → List Bool →
    Except String (List Bool × List Bool)
  | 0, _, _, _ => .error "fuel"
  | _ + 1, [], bv, pos => .ok (bv, pos)
  | fuel + 1, c :: rest, bv, pos =>
    if c = '[' || c = '{' then tokenizeGo fuel rest (bv ++ [true, true]) (pos ++ [true])
    else if c = '}' || c = ']' then tokenizeGo fuel rest (bv ++ [false, false]) (pos ++ [true])
    else if c = ':' || c = ',' then tokenizeGo fuel rest (bv ++ [false, true]) (pos ++ [true])
    else if c = '"' then
      match eatStr c true rest with
      | .error e => .error e
      | .ok pr => tokenizeGo fuel pr.1 bv (pos ++ List.replicate pr.2 false)
    else tokenizeGo fuel rest bv (pos ++ [false])

/-- Embeds `Document._loads` up to its error behaviour: tokenize, reject a
nonempty skeleton that does not end in "00", then hand the skeleton to the
`BalancedParentheses` constructor, which raises `ValueError` when
`_balanced` fails (in particular on the empty vector). -/
def loads (src : List Char) : Except String Unit :=
  match tokenizeGo (src.length + 1) src [] [] with
  | .error e => .error e
  | .ok (bv, _) =>
    if bv ≠ [] ∧ (bv.length < 2 ∨ bv.drop (bv.length - 2) ≠ [false, false]) then
      .error "malformed json"
    else if Succinct.balancedB bv then .ok () else .error "not balanced"

end PyJsonLoad

namespace HT

/-- A node of the (intermediate or final) Hu-Tucker tree
(src/succinct/wavelet.py): leaves carry a symbol, every node carries a
weight.  Symbols are the code points of the training text's characters. -/
inductive HTree where
  | leaf (sym : Nat) (cnt : Nat)
  | node (cnt : Nat) (l r : HTree)

instance : Inhabited HTree := ⟨.leaf 0 0⟩

/-- Weight of a tree node (`node.cnt`). -/
def cntOf : HTree → Nat
  | .leaf _ c => c
  | .node c _ _ => c

/-- Insertion into a sorted symbol list. -/
def insNat (x : Nat) : List Nat → List Nat
  | [] => [x]
  | y :: ys => if x ≤ y then x :: y :: ys else y :: insNat x ys

/-- Embeds `sorted(leaves)`: the distinct symbols in increasing order. -/
def sortedAlphabet (text : List Nat) : List Nat :=
  (text.dedup).foldr insNat []

/-- Embeds the pair-selection scan of the Garsia-Wachs phase: the leftmost
`idx` strictly inside the list with `nodes[idx-1].cnt <= nodes[idx+1].cnt`,
defaulting to the last index. -/
def findTgt (nodes : List HTree) : Nat :=
  match (List.range nodes.length).find? (fun idx =>
      decide (1 ≤ idx) && decide (idx < nodes.length - 1) &&
      decide (cntOf (nodes.getD (idx - 1) default) ≤ cntOf (nodes.getD (idx + 1) default))) with
  | some idx => idx
  | none => nodes.length - 1

/-- Embeds the re-insertion scan `for ins in reversed(xrange(1, tgt))`:
the first position (from the right) whose left neighbour weighs at least
the merged node, defaulting to 0.  Only `nodes[0 .. tgt-2]` is examined. -/
def findInsGo (nodes : List HTree) (w : Nat) : Nat → Nat
  | 0 => 0
  | ins + 1 =>
    if w ≤ cntOf (nodes.getD ins default) then ins + 1
    else findInsGo nodes w ins

/-- One iteration of the Garsia-Wachs merge loop.  Python inserts the
merged node into the full list and then removes `left` and `right` by
identity; since the insertion point is at most `tgt - 1`, this equals
inserting into the list with positions `tgt - 1` and `tgt` deleted. -/
def mergeStep (nodes : List HTree) : List HTree :=
  let tgt := findTgt nodes
  let left := nodes.getD (tgt - 1) default
  let right := nodes.getD tgt default
  let merged := HTree.node (cntOf left + cntOf right) left right
  let ins := findInsGo nodes (cntOf merged) (tgt - 1)
  let remaining := nodes.take (tgt - 1) ++ nodes.drop (tgt + 1)
  remaining.take ins ++ merged :: remaining.drop ins

/-- Embeds `while len(nodes) > 1`: each step removes one node, so fuel
`length + 1` always suffices. -/
def mergeAll : Nat → List HTree → Option HTree
  | _, [] => none
  | _, [t] => some t
  | 0, _ => none
  | fuel + 1, ts => mergeAll fuel (mergeStep ts)

/-- Leaf depths of the intermediate tree (the DFS stack of the source
only feeds a symbol-to-depth dict, so traversal order is immaterial). -/
def depthsOf : HTree → Nat → List (Nat × Nat)
  | .leaf sym _, d => [(sym, d)]
  | .node _ l r, d => depthsOf l (d + 1) ++ depthsOf r (d + 1)

/-- Embeds the inner `while True` of the placement phase for one symbol of
depth `d`: pop a slot (its address doubles as its depth and its eventual
codeword); a matching depth places the symbol; a shallower slot is split
into its two children (left on top); a deeper slot is silently dropped,
which leaves a childless symbol-less node in the tree.  An empty stack
raises `IndexError` (`none`). -/
def placeSym (d : Nat) : Nat → List (List Bool) → Bool →
    Option (List Bool × List (List Bool) × Bool)
  | _, [], _ => none
  | 0, _, _ => none
  | fuel + 1, addr :: rest, dropped =>
    if d = addr.length then some (addr, rest, dropped)
    else if addr.length < d then
      placeSym d fuel ((addr ++ [false]) :: (addr ++ [true]) :: rest) dropped
    else placeSym d fuel rest true

/-- Embeds the placement loop over the sorted alphabet, then the code
generation walk: a dropped slot or a leftover slot is a childless
symbol-less node whose traversal dereferences a `None` child, so the
constructor completes cleanly only when the stack is consumed exactly;
in that case the codeword of each symbol is its slot's address. -/
def placeAll (dmap : List (Nat × Nat)) : List Nat → List (List Bool) → Bool → Nat →
    Option (List (Nat × List Bool))
  | [], paths, dropped, _ =>
    if paths.isEmpty && !dropped then some [] else none
  | sym :: syms, paths, dropped, fuel =>
    match placeSym ((dmap.lookup sym).getD 0) fuel paths dropped with
    | none => none
    | some (addr, paths2, dropped2) =>
      (placeAll dmap syms paths2 dropped2 fuel).map (fun rest => (sym, addr) :: rest)

/-- Maximal recorded depth, used to size the placement fuel. -/
def maxD (dmap : List (Nat × Nat)) : Nat :=
  dmap.foldl (fun acc p => max acc p.2) 0

/-- Embeds `HuTuckerCodec.__init__` on a text of symbols: empty text keeps
empty code tables; otherwise run the Garsia-Wachs merge phase, record leaf
depths, and re-place the symbols in alphabetical order.  Answers the
symbol-to-codeword table, or `none` when the constructor raises. -/
def huTucker (text : List Nat) : Option (List (Nat × List Bool)) :=
  if text = [] then some []
  else
    let ab := sortedAlphabet text
    let leaves := ab.map (fun sym => HTree.leaf sym (text.count sym))
    match mergeAll (leaves.length + 1) leaves with
    | none => none
    | some t =>
      let dmap := depthsOf t 0
      placeAll dmap ab [[]] false (2 ^ (maxD dmap + 2))

/-- Python comparison of two codeword strings over '0' < '1': strict
lexicographic order with a proper prefix comparing smaller. -/
def lexLt : List Bool → List Bool → Bool
  | [], [] => false
  | [], _ :: _ => true
  | _ :: _, [] => false
  | x :: xs, y :: ys =>
    if x = y then lexLt xs ys else (x = false) && (y = true)

/-- Two slot addresses diverge: after a common stretch the first turns
left (`0`) where the second turns right (`1`).  The placement loop keeps
every address still on the stack divergent, in this sense, from every
address already handed out, which is what makes the generated codewords
increase along the alphabet. -/
def Div (x y : List Bool) : Prop :=
  ∃ c xs ys, x = c ++ false :: xs ∧ y = c ++ true :: ys

end HT

/-!  Theorems.  Each claim's theorem is stated over the embedded
definitions above; helper lemmas precede them. -/

/-- C1: for text "t" and index 0 the wavelet tree's `__getitem__` does not
answer `text[0] = 't'`: the walk collects the code bits 1110100, but the
method hands `codec.decode` the *integer* `int('1110100', 2) = 116`, and
`ASCIICodec.decode` then evaluates `int(116, 2)`, a `TypeError`; decoding
the collected code string itself would have produced 't', as the spec and
the repository's own `test_access` demand. -/
theorem wavelet_getitem_raises_type_error :
    Wave.getitem ['t'] 0 = Except.error "TypeError" ∧
    Wave.access 64 (Wave.build ['t']) 0 = Wave.asciiEncode 't' ∧
    Wave.asciiDecode (Wave.PyVal.pystr (Wave.access 64 (Wave.build ['t']) 0)) =
      Except.ok 't' := by
  refine ⟨rfl, rfl, rfl⟩

/-- C2: the CSA backward search does not compute the plain suffix array
count: on text "aa" and pattern "aa" it answers 2 while `SA.count` and the
naive occurrence count answer 1 (the missing end-of-text sentinel lets the
final-character occurrence leak into the range ends). -/
theorem csa_count_disagrees_with_sa_count :
    Index.csaCount "aa".toList "aa".toList = 2 ∧
    Index.saCount "aa".toList "aa".toList = 1 ∧
    Index.naiveCount "aa".toList "aa".toList = 1 := by
  refine ⟨rfl, rfl, rfl⟩

/-- C3: on the empty pattern `SA.count` answers `len + 2`, not the naive
count `len + 1` that its own comment (`match behavior for string.count`)
promises: `_search` answers the range `(0, len + 1)` and
`count = end - start + 1` adds one more. -/
theorem sa_count_empty_pattern_off_by_one :
    Index.saCount "foo".toList [] = 5 ∧
    Index.naiveCount "foo".toList [] = 4 := by
  refine ⟨rfl, rfl⟩

/-- C8 counterexample: for the non-integral negative float index -5/2 the
indexer uses -1, but the ceiling of -5/2 is -2; the claim that the index
used equals the ceiling fails for negative non-integral floats. -/
theorem indexer_float_negative_not_ceiling :
    PyJson.mkintFloat (-5 / 2 : ℚ) = -1 ∧ ⌈(-5 / 2 : ℚ)⌉ = -2 := by
  constructor
  · have hden : (-5 / 2 : ℚ).den ≠ 1 := by norm_num
    have hneg : ¬(0 ≤ (-5 / 2 : ℚ)) := by norm_num
    unfold PyJson.mkintFloat PyJson.pytrunc
    rw [if_neg hden, if_neg hneg]
    have h2 : ⌈(-5 / 2 : ℚ)⌉ = -2 := by norm_num [Int.ceil_eq_iff]
    rw [h2]
    decide
  · norm_num [Int.ceil_eq_iff]

/-- C8 amended: a non-integral float index `K` is replaced by
`int(K) + 1`, truncation toward zero plus one; for positive `K` this is
the ceiling, for negative `K` it is the ceiling plus one. -/
theorem indexer_float_rounding (q : ℚ) (h : q.den ≠ 1) :
    (0 < q → PyJson.mkintFloat q = ⌈q⌉) ∧
    (q < 0 → PyJson.mkintFloat q = ⌈q⌉ + 1) := by
  have hnotint : (⌊q⌋ : ℚ) ≠ q := by
    intro he
    exact h (by rw [← he]; exact Rat.den_intCast ⌊q⌋)
  constructor
  · intro hq
    have h1 : PyJson.mkintFloat q = ⌊q⌋ + 1 := by
      unfold PyJson.mkintFloat PyJson.pytrunc
      rw [if_neg h, if_pos (le_of_lt hq)]
    have h2 : ⌈q⌉ = ⌊q⌋ + 1 := by
      have hlt : ⌊q⌋ < ⌈q⌉ := by
        rcases lt_or_eq_of_le (Int.floor_le_ceil q) with hlt | he
        · exact hlt
        · exfalso
          apply hnotint
          have hqle : q ≤ (⌊q⌋ : ℚ) := by
            calc q ≤ (⌈q⌉ : ℚ) := Int.le_ceil q
            _ = (⌊q⌋ : ℚ) := by rw [← he]
          exact le_antisymm (Int.floor_le q) hqle
      exact le_antisymm (Int.ceil_le_floor_add_one q) hlt
    rw [h1, h2]
  · intro hq
    unfold PyJson.mkintFloat PyJson.pytrunc
    rw [if_neg h, if_neg (not_le.mpr hq)]

/-- C8 witness: the amended statement applied at the concrete index 5/2. -/
theorem indexer_float_rounding_witness :
    (5 / 2 : ℚ).den ≠ 1 ∧
    ((0 < (5 / 2 : ℚ) → PyJson.mkintFloat (5 / 2) = ⌈(5 / 2 : ℚ)⌉) ∧
     ((5 / 2 : ℚ) < 0 → PyJson.mkintFloat (5 / 2) = ⌈(5 / 2 : ℚ)⌉ + 1)) :=
  ⟨by norm_num, indexer_float_rounding (5 / 2) (by norm_num)⟩

/-- C9 counterexample: `append` is part of the constructed vector's
interface (the wavelet builder calls it after construction) and it changes
both length and content: appending to "0" yields "01". -/
theorem bitvector_append_mutates :
    PyOps.run [false] [PyOps.Op.append true] ≠ [false] := by
  decide

/-- C9 amended: the query operations — len, getitem, rank and select —
never change the stored bits; any sequence avoiding `append`/`extend`
leaves length and content exactly as constructed. -/
theorem bitvector_queries_preserve_state (bits : List Bool) (ops : List PyOps.Op)
    (h : ops.all (fun op => !PyOps.mutating op) = true) :
    PyOps.run bits ops = bits := by
  induction ops generalizing bits with
  | nil => rfl
  | cons op rest ih =>
    rw [List.all_cons, Bool.and_eq_true] at h
    have hstep : PyOps.step bits op = bits := by
      cases op with
      | append b => simp [PyOps.mutating] at h
      | extend bs => simp [PyOps.mutating] at h
      | lengthOf => rfl
      | getitem i => rfl
      | rankOf p i => rfl
      | selectOf p k => rfl
    show PyOps.run (PyOps.step bits op) rest = bits
    rw [hstep]
    exact ih bits h.2

/-- C9 witness: a concrete run of rank, select, len and getitem on the
vector "010110" leaves it unchanged. -/
theorem bitvector_queries_preserve_state_witness :
    ([PyOps.Op.rankOf [true] 3, PyOps.Op.selectOf [false] 1,
      PyOps.Op.lengthOf, PyOps.Op.getitem 2].all
      (fun op => !PyOps.mutating op) = true) ∧
    PyOps.run [false, true, false, true, true, false]
      [PyOps.Op.rankOf [true] 3, PyOps.Op.selectOf [false] 1,
       PyOps.Op.lengthOf, PyOps.Op.getitem 2] =
      [false, true, false, true, true, false] :=
  ⟨by decide, bitvector_queries_preserve_state _ _ (by decide)⟩

/-- Specification of the select scan: when at least `cnt` matches remain
in the scanned window, the scan answers the `cnt`-th of them, and the
match count up to and including the answer is exactly `cnt`. -/
theorem selectGo_spec (bits p : List Bool) :
    ∀ (fuel idx cnt : Nat), 1 ≤ cnt →
      cnt ≤ (List.range' idx fuel).countP (BV.matchAt bits p) →
      ∃ j, BV.selectGo bits p fuel idx cnt = some j ∧ idx ≤ j ∧ j < idx + fuel ∧
        (List.range' idx (j - idx + 1)).countP (BV.matchAt bits p) = cnt := by
  intro fuel
  induction fuel with
  | zero =>
    intro idx cnt h1 h2
    simp only [List.range', List.countP_nil] at h2
    omega
  | succ fuel ih =>
    intro idx cnt h1 h2
    rw [List.range'_succ, List.countP_cons] at h2
    by_cases hm2 : BV.matchAt bits p idx
    · by_cases hc : cnt = 1
      · refine ⟨idx, ?_, le_refl idx, by omega, ?_⟩
        · simp only [BV.selectGo, hm2, if_true, hc]
        · have : idx - idx + 1 = 1 := by omega
          rw [this, List.range'_succ]
          simp [List.countP_cons, hm2, hc]
      · have h1' : 1 ≤ cnt - 1 := by omega
        have h2' : cnt - 1 ≤ (List.range' (idx + 1) fuel).countP (BV.matchAt bits p) := by
          rw [hm2] at h2; simp at h2; omega
        obtain ⟨j, hj, hij, hjlt, hcnt⟩ := ih (idx + 1) (cnt - 1) h1' h2'
        refine ⟨j, ?_, by omega, by omega, ?_⟩
        · simp only [BV.selectGo, hm2, if_true, hc, if_false]
          exact hj
        · have hsplit : j - idx + 1 = (j - (idx + 1) + 1) + 1 := by omega
          rw [hsplit, List.range'_succ, List.countP_cons, hcnt, hm2]
          simp
          omega
    · have h2' : cnt ≤ (List.range' (idx + 1) fuel).countP (BV.matchAt bits p) := by
        simp [hm2] at h2; omega
      obtain ⟨j, hj, hij, hjlt, hcnt⟩ := ih (idx + 1) cnt h1 h2'
      refine ⟨j, ?_, by omega, by omega, ?_⟩
      · simp only [BV.selectGo, hm2, if_false]
        exact hj
      · have hsplit : j - idx + 1 = (j - (idx + 1) + 1) + 1 := by omega
        rw [hsplit, List.range'_succ, List.countP_cons, hcnt]
        simp [hm2]

/-- C6: for every bit vector, every pattern and every `k` between 1 and
the number of occurrences of the pattern, `select(p, k)` succeeds and
`rank(p, select(p, k)) = k`: select is a right inverse of rank on valid
counts. -/
theorem bitvector_select_rank_roundtrip (bits p : List Bool) (k : Nat)
    (h1 : 1 ≤ k) (h2 : k ≤ BV.occCount bits p) :
    ∃ j, BV.select bits p k = some j ∧ BV.rank bits p j = some k := by
  have hlen : BV.occCount bits p ≤ bits.length := by
    have h := @List.countP_le_length _ (BV.matchAt bits p) (List.range bits.length)
    rw [List.length_range] at h
    exact h
  have hkn : k ≤ bits.length := le_trans h2 hlen
  have h2' : k ≤ (List.range' 0 bits.length).countP (BV.matchAt bits p) := by
    rw [← List.range_eq_range']
    exact h2
  obtain ⟨j, hj, h0j, hjlt, hcnt⟩ := selectGo_spec bits p bits.length 0 k h1 h2'
  refine ⟨j, ?_, ?_⟩
  · unfold BV.select
    rw [if_neg (by omega)]
    exact hj
  · unfold BV.rank
    rw [if_pos (by omega)]
    unfold BV.rankCount
    rw [List.range_eq_range']
    have : j + 1 = j - 0 + 1 := by omega
    rw [this, hcnt]

/-- C6 witness: on "010110" with pattern "10" and `k = 2`, select answers
position 4 and rank at 4 answers 2. -/
theorem bitvector_select_rank_roundtrip_witness :
    1 ≤ 2 ∧ 2 ≤ BV.occCount [false, true, false, true, true, false] [true, false] ∧
    ∃ j, BV.select [false, true, false, true, true, false] [true, false] 2 = some j ∧
      BV.rank [false, true, false, true, true, false] [true, false] j = some 2 :=
  ⟨by decide, by decide,
    bitvector_select_rank_roundtrip _ _ 2 (by decide) (by decide)⟩

/-- The string loop of the tokenizer only ever consumes a prefix of the
remaining input: its leftover is a suffix. -/
theorem eatStr_suffix :
    ∀ (rest : List Char) (c : Char) (esc : Bool) (r2 : List Char) (z : Nat),
      PyJsonLoad.eatStr c esc rest = .ok (r2, z) → ∃ pre, rest = pre ++ r2 := by
  intro rest
  induction rest with
  | nil =>
    intro c esc r2 z h
    unfold PyJsonLoad.eatStr at h
    split at h
    · simp only [] at h
      exact absurd h (by simp)
    · injection h with h2
      injection h2 with ha hb
      exact ⟨[], ha⟩
  | cons c2 rest2 ih =>
    intro c esc r2 z h
    unfold PyJsonLoad.eatStr at h
    split at h
    · simp only [] at h
      cases h2 : PyJsonLoad.eatStr c2 (decide (c2 = '\\')) rest2 with
      | error e =>
        rw [h2] at h
        exact absurd h (by simp [Except.map])
      | ok pr =>
        rw [h2] at h
        simp only [Except.map] at h
        injection h with h3
        have hpr : pr.1 = r2 := congrArg Prod.fst h3
        obtain ⟨pre2, hpre2⟩ := ih c2 (decide (c2 = '\\')) pr.1 pr.2 (by rw [h2])
        refine ⟨c2 :: pre2, ?_⟩
        rw [← hpr, List.cons_append, ← hpre2]
    · injection h with h2
      injection h2 with ha hb
      exact ⟨[], ha⟩

/-- On input free of structural tokens the tokenizer never extends the
skeleton vector: it either raises (unterminated string) or succeeds with
the skeleton it was given. -/
theorem tokenizeGo_no_structural :
    ∀ (fuel : Nat) (src : List Char) (bv pos : List Bool),
      src.length < fuel → (∀ c ∈ src, PyJsonLoad.structuralTok c = false) →
      (∃ e, PyJsonLoad.tokenizeGo fuel src bv pos = .error e) ∨
      (∃ pos2, PyJsonLoad.tokenizeGo fuel src bv pos = .ok (bv, pos2)) := by
  intro fuel
  induction fuel with
  | zero => intro src bv pos hlen _; omega
  | succ fuel ih =>
    intro src bv pos hlen hns
    cases src with
    | nil => exact Or.inr ⟨pos, rfl⟩
    | cons c rest =>
      have hc := hns c (List.mem_cons_self c rest)
      simp only [PyJsonLoad.structuralTok, Bool.or_eq_false_iff,
        decide_eq_false_iff_not] at hc
      obtain ⟨⟨⟨⟨⟨h1, h2⟩, h3⟩, h4⟩, h5⟩, h6⟩ := hc
      have hrest : ∀ c2 ∈ rest, PyJsonLoad.structuralTok c2 = false :=
        fun c2 hm => hns c2 (List.mem_cons_of_mem c hm)
      simp only [PyJsonLoad.tokenizeGo]
      rw [if_neg (by simp [h1, h2]), if_neg (by simp [h3, h4]),
        if_neg (by simp [h5, h6])]
      by_cases hq : c = '"'
      · rw [if_pos (by simp [hq])]
        cases he : PyJsonLoad.eatStr c true rest with
        | error e => exact Or.inl ⟨e, rfl⟩
        | ok pr =>
          obtain ⟨pre, hpre⟩ := eatStr_suffix rest c true pr.1 pr.2 (by rw [he])
          have hlen2 : pr.1.length < fuel := by
            have : rest.length = pre.length + pr.1.length := by
              rw [hpre, List.length_append]
            simp only [List.length_cons] at hlen
            omega
          have hmem2 : ∀ c2 ∈ pr.1, PyJsonLoad.structuralTok c2 = false := by
            intro c2 hm
            exact hrest c2 (by rw [hpre]; exact List.mem_append_right pre hm)
          exact ih pr.1 bv (pos ++ List.replicate pr.2 false) hlen2 hmem2
      · rw [if_neg (by simp [hq])]
        have hlen2 : rest.length < fuel := by
          simp only [List.length_cons] at hlen
          omega
        exact ih rest bv (pos ++ [false]) hlen2 hrest

/-- C10: any source containing none of the six structural tokens — for
example the valid JSON primitives `5` or a quoted string — makes
`Document._loads` raise `ValueError`: the skeleton bit vector stays empty
and the `BalancedParentheses` constructor rejects it (an unterminated
string raises even earlier, also a `ValueError`). -/
theorem json_loads_rejects_structural_free_source (src : List Char)
    (h : ∀ c ∈ src, PyJsonLoad.structuralTok c = false) :
    (∃ e, PyJsonLoad.loads src = Except.error e) ∧
    (∀ bv2 pos2,
      PyJsonLoad.tokenizeGo (src.length + 1) src [] [] = .ok (bv2, pos2) →
      bv2 = []) := by
  rcases tokenizeGo_no_structural (src.length + 1) src [] [] (by omega) h with
    ⟨e, he⟩ | ⟨pos2, hok⟩
  · refine ⟨⟨e, ?_⟩, ?_⟩
    · unfold PyJsonLoad.loads
      rw [he]
    · intro bv2 pos2 hok2
      rw [he] at hok2
      exact absurd hok2 (by simp)
  · refine ⟨⟨"not balanced", ?_⟩, ?_⟩
    · unfold PyJsonLoad.loads
      rw [hok]
      simp only []
      rw [if_neg (by simp)]
      rw [if_neg (by decide)]
    · intro bv2 pos2 hok2
      rw [hok] at hok2
      injection hok2 with h'
      exact (congrArg Prod.fst h').symm

namespace Succinct

/-- A single-character pattern matches at `idx` exactly when the character
there is '(' (out of range never matches). -/
theorem matchAt_single (s : List Bool) (idx : Nat) :
    BV.matchAt s [true] idx = s.getD idx false := by
  unfold BV.matchAt
  induction s generalizing idx with
  | nil => simp [List.getD]
  | cons b t ih =>
    cases idx with
    | zero => cases b <;> simp [List.getD]
    | succ n => simpa [List.getD] using ih n

/-- Counting single-character matches below `k` is counting '(' in the
prefix of length `k`. -/
theorem countP_range_getD (s : List Bool) :
    ∀ k, (List.range k).countP (fun idx => s.getD idx false) =
      (s.take k).count true := by
  intro k
  induction k with
  | zero => simp
  | succ k ih =>
    rw [List.range_succ, List.countP_append, ih, List.take_succ]
    by_cases hk : k < s.length
    · rw [List.getElem?_eq_getElem hk]
      simp only [List.countP_cons, List.countP_nil, Option.toList_some,
        List.count_append]
      cases hb : s[k] <;> simp [List.count_cons, List.getD_eq_getElem?_getD,
        List.getElem?_eq_getElem hk, hb]
    · have hge : s.length ≤ k := Nat.le_of_not_lt hk
      rw [List.getElem?_eq_none hge]
      simp [List.getD_eq_getElem?_getD, List.getElem?_eq_none hge]

/-- Sum of the signed contributions of a bit list. -/
theorem sum_delta (l : List Bool) :
    (l.map delta).sum = 2 * (l.count true : ℤ) - l.length := by
  induction l with
  | nil => simp
  | cons b t ih =>
    cases b <;> simp [delta, ih, List.count_cons] <;> ring

/-- The source's excess formula agrees with the prefix-sum view inside the
vector. -/
theorem excess_eq_E (s : List Bool) (i : Nat) (hi : i < s.length) :
    excess s i = E s (i + 1) := by
  unfold excess E BV.rankCount
  have hm : (List.range (i + 1)).countP (BV.matchAt s [true]) =
      (List.range (i + 1)).countP (fun idx => s.getD idx false) := by
    apply List.countP_congr
    intro x _
    rw [matchAt_single]
  rw [hm, countP_range_getD, sum_delta]
  have hlen : (s.take (i + 1)).length = i + 1 := by
    rw [List.length_take]
    omega
  rw [hlen]
  have : ((i + 1 : Nat) : ℤ) = (i : ℤ) + 1 := by push_cast; ring
  rw [this]

theorem E_zero (s : List Bool) : E s 0 = 0 := rfl

/-- One step of the prefix sums. -/
theorem E_succ (s : List Bool) (k : Nat) (hk : k < s.length) :
    E s (k + 1) = E s k + delta (s.getD k false) := by
  unfold E
  have h1 : s.take (k + 1) = s.take k ++ [s.getD k false] := by
    rw [List.take_succ, List.getElem?_eq_getElem hk]
    simp [List.getD_eq_getElem?_getD, List.getElem?_eq_getElem hk]
  rw [h1, List.map_append, List.sum_append]
  simp

/-- The two possible step values. -/
theorem E_step_cases (s : List Bool) (k : Nat) (hk : k < s.length) :
    (s.getD k false = true ∧ E s (k + 1) = E s k + 1) ∨
    (s.getD k false = false ∧ E s (k + 1) = E s k - 1) := by
  have h := E_succ s k hk
  cases hb : s.getD k false
  · right
    refine ⟨rfl, ?_⟩
    rw [h, hb]
    have hd : delta false = -1 := rfl
    rw [hd]
    ring
  · left
    refine ⟨rfl, ?_⟩
    rw [h, hb]
    simp [delta]

/-- The step values are plus or minus one. -/
theorem delta_cases (b : Bool) : delta b = 1 ∨ delta b = -1 := by
  cases b <;> simp [delta]

/-- Forward floor propagation: if `E` is above `t` at `lo` and never
equals `t` on `(lo, hi]`, it stays above `t` on all of `[lo, hi]`
(unit steps cannot jump over a level). -/
theorem E_gt_fwd (s : List Bool) (t : ℤ) (lo hi : Nat)
    (hhi : hi ≤ s.length)
    (hlo : t < E s lo)
    (hno : ∀ k, lo < k → k ≤ hi → E s k ≠ t) :
    ∀ k, lo ≤ k → k ≤ hi → t < E s k := by
  intro k hk1 hk2
  induction k with
  | zero =>
    have : lo = 0 := Nat.le_zero.mp hk1
    rw [← this]
    exact hlo
  | succ k ih =>
    by_cases hkl : lo = k + 1
    · rw [← hkl]; exact hlo
    · have hlok : lo ≤ k := by omega
      have hk : t < E s k := ih hlok (by omega)
      have hstep := E_succ s k (by omega)
      have hge : E s k - 1 ≤ E s (k + 1) := by
        rcases delta_cases (s.getD k false) with h | h <;> rw [hstep, h] <;> omega
      have hne := hno (k + 1) (by omega) hk2
      omega

/-- Backward floor propagation: if `E` is above `t` at `hi` and never
equals `t` on `[lo, hi)`, it stays above `t` on all of `[lo, hi]`. -/
theorem E_gt_bwd (s : List Bool) (t : ℤ) (lo hi : Nat)
    (hhi : hi ≤ s.length)
    (hend : t < E s hi)
    (hno : ∀ k, lo ≤ k → k < hi → E s k ≠ t) :
    ∀ k, lo ≤ k → k ≤ hi → t < E s k := by
  have key : ∀ d k, lo ≤ k → k ≤ hi → hi - k = d → t < E s k := by
    intro d
    induction d with
    | zero =>
      intro k h1 h2 h3
      have : k = hi := by omega
      rw [this]
      exact hend
    | succ d ih =>
      intro k h1 h2 h3
      have hklt : k < hi := by omega
      have hnext : t < E s (k + 1) := ih (k + 1) (by omega) (by omega) (by omega)
      have hstep := E_succ s k (by omega)
      have hge : E s (k + 1) - 1 ≤ E s k := by
        rcases delta_cases (s.getD k false) with h | h <;> rw [hstep, h] <;> omega
      have hne := hno k h1 hklt
      omega
  intro k hk1 hk2
  exact key (hi - k) k hk1 hk2 rfl

/-- A successful forward scan answers the first position at or after the
start whose excess equals the target. -/
theorem scanFwd_some (s : List Bool) (tgt : ℤ) :
    ∀ (fuel j r : Nat), scanFwd s tgt fuel j = some r →
      j ≤ r ∧ r < s.length ∧ excess s r = tgt ∧
      ∀ x, j ≤ x → x < r → excess s x ≠ tgt := by
  intro fuel
  induction fuel with
  | zero => intro j r h; exact absurd h (by simp [scanFwd])
  | succ fuel ih =>
    intro j r h
    unfold scanFwd at h
    split at h
    · split at h
      · injection h with h2
        subst h2
        refine ⟨le_refl _, by assumption, by assumption, ?_⟩
        intro x hx1 hx2
        omega
      · obtain ⟨h1, h2, h3, h4⟩ := ih (j + 1) r h
        refine ⟨by omega, h2, h3, ?_⟩
        intro x hx1 hx2
        by_cases hxj : x = j
        · rw [hxj]; assumption
        · exact h4 x (by omega) hx2
    · exact absurd h (by simp)

/-- A failed forward scan means no position in the window matches. -/
theorem scanFwd_none (s : List Bool) (tgt : ℤ) :
    ∀ (fuel j : Nat), scanFwd s tgt fuel j = none →
      ∀ r, j ≤ r → r < s.length → r < j + fuel → excess s r ≠ tgt := by
  intro fuel
  induction fuel with
  | zero => intro j h r h1 h2 h3; omega
  | succ fuel ih =>
    intro j h r h1 h2 h3
    unfold scanFwd at h
    split at h
    · split at h
      · exact absurd h (by simp)
      · by_cases hrj : r = j
        · rw [hrj]; assumption
        · exact ih (j + 1) h r (by omega) h2 (by omega)
    · omega

/-- A successful backward scan answers the last position below the bound
whose excess equals the target. -/
theorem scanBwd_some (s : List Bool) (tgt : ℤ) :
    ∀ (i j : Nat), scanBwd s tgt i = some j →
      j < i ∧ excess s j = tgt ∧ ∀ x, j < x → x < i → excess s x ≠ tgt := by
  intro i
  induction i with
  | zero => intro j h; exact absurd h (by simp [scanBwd])
  | succ i ih =>
    intro j h
    unfold scanBwd at h
    split at h
    · injection h with h2
      subst h2
      refine ⟨by omega, by assumption, ?_⟩
      intro x hx1 hx2
      omega
    · obtain ⟨h1, h2, h3⟩ := ih j h
      refine ⟨by omega, h2, ?_⟩
      intro x hx1 hx2
      by_cases hxi : x = i
      · rw [hxi]; assumption
      · exact h3 x hx1 (by omega)

/-- A failed backward scan means no position below the bound matches. -/
theorem scanBwd_none (s : List Bool) (tgt : ℤ) :
    ∀ (i : Nat), scanBwd s tgt i = none → ∀ x, x < i → excess s x ≠ tgt := by
  intro i
  induction i with
  | zero => intro h x hx; omega
  | succ i ih =>
    intro h x hx
    unfold scanBwd at h
    split at h
    · exact absurd h (by simp)
    · by_cases hxi : x = i
      · rw [hxi]; assumption
      · exact ih h x (by omega)

/-- Unfolding `close` at a valid opening position into the forward scan. -/
theorem close_eq (s : List Bool) (i : Nat) (hp : paren s i = true) :
    close s i = scanFwd s (excess s i - 1) s.length (i + 1) := by
  unfold close fwdsearch
  rw [if_pos hp]
  rw [if_neg (show ¬((i : ℤ) = -1) by omega)]
  have h2 : ((i : ℤ)).toNat = i := Int.toNat_natCast i
  have h3 : ((i : ℤ) + 1).toNat = i + 1 := by omega
  rw [h2, h3]
  congr 1
  ring

/-- Unfolding `enclose` at a valid interior opening position into the
backward scan with target `excess(i) - 2`. -/
theorem enclose_eq (s : List Bool) (i : Nat) (hp : paren s i = true)
    (h0 : i ≠ 0) (hlast : i ≠ s.length - 1) (hin : i < s.length) :
    enclose s i =
      match scanBwd s (excess s i - 2) i with
      | some j => some (j + 1)
      | none => if excess s i - 2 = 0 then some 0 else none := by
  unfold enclose
  rw [if_neg (by omega)]
  rw [if_pos hp]
  simp only []
  unfold bwdsearch
  rw [if_neg (show ¬((i : ℤ) = (s.length : ℤ)) by omega)]
  have h2 : ((i : ℤ)).toNat = i := Int.toNat_natCast i
  rw [h2]
  have h4 : (-2 : ℤ) + excess s i = excess s i - 2 := by ring
  rw [h4]
  cases h : scanBwd s (excess s i - 2) i with
  | none =>
    simp only []
    by_cases hz : excess s i - 2 = 0
    · rw [if_pos hz, if_pos hz]
      rfl
    · rw [if_neg hz, if_neg hz]
      rfl
  | some j =>
    simp only [Option.map_some]
    rfl

theorem paren_getD (s : List Bool) (k : Nat) : paren s k = s.getD k false := rfl

/-- The simple consequences of `_balanced` acceptance used below. -/
theorem balanced_facts (s : List Bool) (hb : balancedB s = true) :
    s.length ≠ 0 ∧ s.length % 2 = 0 ∧ (∀ i, i < s.length → 0 ≤ excess s i) ∧
    excess s (s.length - 1) = 0 ∧ paren s 0 = true ∧
    paren s (s.length - 1) = false := by
  unfold balancedB at hb
  simp only [Bool.and_eq_true, decide_eq_true_eq, beq_iff_eq,
    List.all_eq_true, List.mem_range] at hb
  obtain ⟨⟨⟨⟨⟨⟨⟨h1, h2⟩, h3⟩, h4⟩, h5⟩, h6⟩, _⟩, _⟩ := hb
  refine ⟨h1, h2, fun i hi => h5 i hi, h6, ?_, ?_⟩
  · cases s with
    | nil => simp at h3
    | cons b t =>
      have hbt : b = true := Option.some.inj h3
      rw [paren_getD]
      simp [List.getD, hbt]
  · rw [List.getLast?_eq_getElem?] at h4
    rw [paren_getD, List.getD_eq_getElem?_getD, h4]
    rfl

/-- Prefix sums of a balanced string are nonnegative. -/
theorem E_nonneg_of (s : List Bool) (hb : balancedB s = true) :
    ∀ k, k ≤ s.length → 0 ≤ E s k := by
  obtain ⟨hn, _, hpos, _, _, _⟩ := balanced_facts s hb
  intro k hk
  cases k with
  | zero => simp [E_zero]
  | succ k =>
    have := hpos k (by omega)
    rw [excess_eq_E s k (by omega)] at this
    exact this

/-- The full prefix sum of a balanced string is zero. -/
theorem E_final_of (s : List Bool) (hb : balancedB s = true) :
    E s s.length = 0 := by
  obtain ⟨hn, _, _, hlast, _, _⟩ := balanced_facts s hb
  rw [excess_eq_E s (s.length - 1) (by omega)] at hlast
  have : s.length - 1 + 1 = s.length := by omega
  rw [this] at hlast
  exact hlast

/-- A step up at an opening parenthesis. -/
theorem E_succ_of_paren (s : List Bool) (i : Nat) (hp : paren s i = true)
    (hi : i < s.length) : E s (i + 1) = E s i + 1 := by
  rcases E_step_cases s i hi with ⟨_, h⟩ | ⟨hf, _⟩
  · exact h
  · rw [paren_getD] at hp
    rw [hp] at hf
    exact absurd hf (by simp)

/-- Full description of `close` at a valid opening position of a balanced
string: the answer exists, lies strictly inside the vector, closes one
level below, carries ')', and the excess never dips below the opening
level before it. -/
theorem close_spec (s : List Bool) (hb : balancedB s = true) (i : Nat)
    (hp : paren s i = true) (hi : i < s.length) :
    ∃ c, close s i = some c ∧ i < c ∧ c < s.length ∧
      E s (c + 1) = E s (i + 1) - 1 ∧ E s c = E s (i + 1) ∧
      paren s c = false ∧
      (∀ k, i + 1 ≤ k → k ≤ c → E s (i + 1) ≤ E s k) := by
  have hEi : 0 ≤ E s i := E_nonneg_of s hb i (by omega)
  have hstep : E s (i + 1) = E s i + 1 := E_succ_of_paren s i hp hi
  have hex : excess s i = E s (i + 1) := excess_eq_E s i hi
  rw [close_eq s i hp]
  cases hscan : scanFwd s (excess s i - 1) s.length (i + 1) with
  | none =>
    exfalso
    have hnone := scanFwd_none s (excess s i - 1) s.length (i + 1) hscan
    have hgt := E_gt_fwd s (E s (i + 1) - 1) (i + 1) s.length (le_refl _)
      (by omega) ?_
    · have hfin := E_final_of s hb
      have := hgt s.length (by omega) (le_refl _)
      omega
    · intro k hk1 hk2
      have hx := hnone (k - 1) (by omega) (by omega) (by omega)
      rw [excess_eq_E s (k - 1) (by omega), hex] at hx
      have hkk : k - 1 + 1 = k := by omega
      rw [hkk] at hx
      exact hx
  | some c =>
    obtain ⟨h1, h2, h3, h4⟩ := scanFwd_some s (excess s i - 1) s.length (i + 1) c hscan
    have hEc1 : E s (c + 1) = E s (i + 1) - 1 := by
      rw [← excess_eq_E s c h2, h3, hex]
    have hint : ∀ k, i + 1 ≤ k → k ≤ c → E s (i + 1) - 1 < E s k := by
      apply E_gt_fwd s (E s (i + 1) - 1) (i + 1) c (by omega) (by omega)
      intro k hk1 hk2
      have hx := h4 (k - 1) (by omega) (by omega)
      rw [excess_eq_E s (k - 1) (by omega), hex] at hx
      have hkk : k - 1 + 1 = k := by omega
      rw [hkk] at hx
      exact hx
    have hc_ge : E s (i + 1) ≤ E s c := by
      have := hint c h1 (le_refl c)
      omega
    rcases E_step_cases s c h2 with ⟨_, hstep2⟩ | ⟨hf, hstep2⟩
    · exfalso
      omega
    · refine ⟨c, rfl, by omega, h2, hEc1, by omega, ?_, ?_⟩
      · rw [paren_getD]
        exact hf
      · intro k hk1 hk2
        have := hint k hk1 hk2
        omega

theorem foldl_min_le_init : ∀ (rest : List ℤ) (a : ℤ), rest.foldl min a ≤ a := by
  intro rest
  induction rest with
  | nil => intro a; exact le_refl a
  | cons v t ih =>
    intro a
    calc t.foldl min (min a v) ≤ min a v := ih (min a v)
    _ ≤ a := min_le_left a v

theorem foldl_min_le_mem :
    ∀ (rest : List ℤ) (a x : ℤ), x ∈ rest → rest.foldl min a ≤ x := by
  intro rest
  induction rest with
  | nil => intro a x hx; exact absurd hx (by simp)
  | cons v t ih =>
    intro a x hx
    rcases List.mem_cons.mp hx with h | h
    · calc t.foldl min (min a v) ≤ min a v := foldl_min_le_init t (min a v)
      _ ≤ v := min_le_right a v
      _ = x := h.symm
    · exact ih (min a v) x h

theorem foldl_min_mem :
    ∀ (rest : List ℤ) (a : ℤ), rest.foldl min a = a ∨ rest.foldl min a ∈ rest := by
  intro rest
  induction rest with
  | nil => intro a; exact Or.inl rfl
  | cons v t ih =>
    intro a
    rcases ih (min a v) with h | h
    · rcases le_total a v with hav | hav
      · left
        rw [List.foldl_cons, h, min_eq_left hav]
      · right
        rw [List.foldl_cons, h, min_eq_right hav]
        exact List.mem_cons_self v t
    · right
      exact List.mem_cons_of_mem v h

/-- The minimum is a lower bound of a nonempty list. -/
theorem lmin_le (v : ℤ) (rest : List ℤ) :
    ∀ x ∈ v :: rest, lmin (v :: rest) ≤ x := by
  intro x hx
  rcases List.mem_cons.mp hx with h | h
  · rw [h]
    exact foldl_min_le_init rest v
  · exact foldl_min_le_mem rest v x h

/-- The minimum of a nonempty list is attained. -/
theorem lmin_mem (v : ℤ) (rest : List ℤ) : lmin (v :: rest) ∈ v :: rest := by
  rcases foldl_min_mem rest v with h | h
  · rw [lmin, h]
    exact List.mem_cons_self v rest
  · exact List.mem_cons_of_mem v h

theorem excList_length (s : List Bool) (i j : Nat) :
    (excList s i j).length = j + 1 - i := by
  unfold excList
  rw [List.length_map, List.length_range']

/-- Elements of the excess list are the excesses of the range. -/
theorem excList_getD (s : List Bool) (i j d : Nat) (hd : d < j + 1 - i) :
    (excList s i j).getD d 0 = excess s (i + d) := by
  unfold excList
  rw [List.getD_eq_getElem?_getD, List.getElem?_map, List.getElem?_range' i 1 hd]
  simp

theorem excList_mem_of (s : List Bool) (i j k : Nat) (h1 : i ≤ k) (h2 : k ≤ j) :
    excess s k ∈ excList s i j := by
  unfold excList
  refine List.mem_map_of_mem _ ?_
  rw [List.mem_range']
  exact ⟨k - i, by omega, by omega⟩

theorem excList_ne_nil (s : List Bool) (i j : Nat) (hij : i ≤ j) :
    excList s i j ≠ [] := by
  intro h
  have := excList_length s i j
  rw [h] at this
  simp at this
  omega

/-- Every member of the excess list is the excess of some position. -/
theorem excList_mem_inv (s : List Bool) (i j : Nat) (x : ℤ)
    (hx : x ∈ excList s i j) : ∃ k, i ≤ k ∧ k ≤ j ∧ excess s k = x := by
  unfold excList at hx
  obtain ⟨k, hk, hke⟩ := List.mem_map.mp hx
  rw [List.mem_range'] at hk
  obtain ⟨d, hd, hkd⟩ := hk
  exact ⟨k, by omega, by omega, hke⟩

/-- The minimum of the excess list bounds every excess of the range. -/
theorem lmin_excList_le (s : List Bool) (i j : Nat) (hij : i ≤ j) :
    ∀ k, i ≤ k → k ≤ j → lmin (excList s i j) ≤ excess s k := by
  intro k h1 h2
  cases hl : excList s i j with
  | nil => exact absurd hl (excList_ne_nil s i j hij)
  | cons v rest =>
    have := lmin_le v rest (excess s k) (by rw [← hl]; exact excList_mem_of s i j k h1 h2)
    rw [← hl] at this ⊢
    exact this

/-- The minimum of the excess list is attained at some position. -/
theorem lmin_excList_attained (s : List Bool) (i j : Nat) (hij : i ≤ j) :
    ∃ k, i ≤ k ∧ k ≤ j ∧ excess s k = lmin (excList s i j) := by
  cases hl : excList s i j with
  | nil => exact absurd hl (excList_ne_nil s i j hij)
  | cons v rest =>
    have hm : lmin (v :: rest) ∈ excList s i j := by
      rw [hl]
      exact lmin_mem v rest
    exact excList_mem_inv s i j _ hm

/-- Specification of the k-th-minimum scan: when at least `cnt` copies of
`m` occur, the scan answers the position of the `cnt`-th copy (counting
from `cur`), and the count of copies up to the answer is exactly `cnt`. -/
theorem kthMin_spec (m : ℤ) :
    ∀ (l : List ℤ) (cnt : ℤ) (cur : Nat), 1 ≤ cnt → cnt ≤ (l.count m : ℤ) →
      ∃ r, kthMin m l cnt cur = some r ∧ cur ≤ r ∧ r < cur + l.length ∧
        l.getD (r - cur) 0 = m ∧ ((l.take (r - cur + 1)).count m : ℤ) = cnt := by
  intro l
  induction l with
  | nil =>
    intro cnt cur h1 h2
    simp at h2
    omega
  | cons v t ih =>
    intro cnt cur h1 h2
    by_cases hv : v = m
    · by_cases hc : cnt - 1 = 0
      · refine ⟨cur, ?_, le_refl _, by simp only [List.length_cons]; omega, ?_, ?_⟩
        · unfold kthMin
          rw [if_pos hv, if_pos hc]
        · have : cur - cur = 0 := by omega
          rw [this, List.getD_cons_zero]
          exact hv
        · have : cur - cur + 1 = 1 := by omega
          rw [this]
          simp [List.count_cons, hv]
          omega
      · have h2' : cnt - 1 ≤ (t.count m : ℤ) := by
          rw [List.count_cons] at h2
          simp [hv] at h2
          omega
        obtain ⟨r, hr, hcr, hrl, hgd, hcnt⟩ := ih (cnt - 1) (cur + 1) (by omega) h2'
        refine ⟨r, ?_, by omega, by simp only [List.length_cons]; omega, ?_, ?_⟩
        · unfold kthMin
          rw [if_pos hv, if_neg hc]
          exact hr
        · have : r - cur = (r - (cur + 1)) + 1 := by omega
          rw [this, List.getD_cons_succ]
          exact hgd
        · have h5 : r - cur + 1 = (r - (cur + 1) + 1) + 1 := by omega
          rw [h5, List.take_cons (by omega), List.count_cons]
          have h6 : r - (cur + 1) + 1 + 1 - 1 = r - (cur + 1) + 1 := by omega
          rw [h6]
          push_cast
          rw [hcnt]
          simp [hv]
    · have h2' : cnt ≤ (t.count m : ℤ) := by
        rw [List.count_cons] at h2
        simp [hv] at h2
        exact h2
      obtain ⟨r, hr, hcr, hrl, hgd, hcnt⟩ := ih cnt (cur + 1) h1 h2'
      refine ⟨r, ?_, by omega, by simp only [List.length_cons]; omega, ?_, ?_⟩
      · unfold kthMin
        rw [if_neg hv]
        exact hr
      · have : r - cur = (r - (cur + 1)) + 1 := by omega
        rw [this, List.getD_cons_succ]
        exact hgd
      · have h5 : r - cur + 1 = (r - (cur + 1) + 1) + 1 := by omega
        rw [h5, List.take_cons (by omega), List.count_cons]
        have h6 : r - (cur + 1) + 1 + 1 - 1 = r - (cur + 1) + 1 := by omega
        rw [h6]
        push_cast
        rw [hcnt]
        simp [hv]

/-- Inside a single-rooted balanced string the excess of every proper
prefix is at least one. -/
theorem tree_interior (s : List Bool) (ht : isTree s) :
    ∀ k, 1 ≤ k → k ≤ s.length - 1 → 1 ≤ E s k := by
  obtain ⟨hb, hroot⟩ := ht
  obtain ⟨hn, heven, _, _, hp0, _⟩ := balanced_facts s hb
  have hn2 : 2 ≤ s.length := by omega
  obtain ⟨c, hc, h1, h2, h3, h4, h5, h6⟩ := close_spec s hb 0 hp0 (by omega)
  rw [hroot] at hc
  injection hc with hceq
  intro k hk1 hk2
  have hE1 : E s 1 = 1 := by
    have h := E_succ_of_paren s 0 hp0 (by omega)
    rw [E_zero] at h
    simpa using h
  have h7 : E s 1 ≤ E s k := by simpa using h6 k (by omega) (by omega)
  omega

/-- The parent computation at an inner opening position `x` that sits
exactly one level inside `v` and whose in-between prefix sums never dip
below the level of `v`: `enclose` finds `v`. -/
theorem parent_of_inner (s : List Bool) (ht : isTree s) (v x : Nat)
    (hv : paren s v = true) (hx : paren s x = true)
    (hvx : v + 1 ≤ x) (hxn : x ≤ s.length - 2)
    (hEx : E s x = E s (v + 1))
    (hfloor : ∀ k, v + 1 ≤ k → k ≤ x → E s (v + 1) ≤ E s k) :
    parent s x = .ok (some v) := by
  obtain ⟨hb, hroot⟩ := ht
  obtain ⟨hn, heven, _, _, hp0, hplast⟩ := balanced_facts s hb
  have hn2 : 2 ≤ s.length := by omega
  have hxlt : x < s.length := by omega
  have hvlt : v < s.length := by omega
  have hstepx : E s (x + 1) = E s x + 1 := E_succ_of_paren s x hx hxlt
  have hstepv : E s (v + 1) = E s v + 1 := E_succ_of_paren s v hv hvlt
  have hexx : excess s x = E s (x + 1) := excess_eq_E s x hxlt
  have htgt : excess s x - 2 = E s v := by omega
  unfold parent
  rw [if_neg (by omega : ¬x = 0)]
  rw [enclose_eq s x hx (by omega) (by omega) hxlt]
  by_cases hv0 : v = 0
  · subst hv0
    have htgt0 : excess s x - 2 = 0 := by
      rw [htgt, E_zero]
    cases hscan : scanBwd s (excess s x - 2) x with
    | some j =>
      exfalso
      obtain ⟨hj1, hj2, _⟩ := scanBwd_some s _ x j hscan
      have hj3 := tree_interior s ⟨hb, hroot⟩ (j + 1) (by omega) (by omega)
      rw [excess_eq_E s j (by omega)] at hj2
      omega
    | none =>
      simp only []
      rw [if_pos htgt0]
      simp only []
      rw [if_pos hp0]
  · cases hscan : scanBwd s (excess s x - 2) x with
    | none =>
      exfalso
      have hnone := scanBwd_none s _ x hscan (v - 1) (by omega)
      rw [excess_eq_E s (v - 1) (by omega)] at hnone
      have hvv : v - 1 + 1 = v := by omega
      rw [hvv] at hnone
      exact hnone htgt.symm
    | some j =>
      obtain ⟨hj1, hj2, hj3⟩ := scanBwd_some s _ x j hscan
      have hjv : j = v - 1 := by
        by_contra hne
        rcases Nat.lt_or_ge j (v - 1) with hlt | hge
        · have hmax := hj3 (v - 1) (by omega) (by omega)
          rw [excess_eq_E s (v - 1) (by omega)] at hmax
          have hvv : v - 1 + 1 = v := by omega
          rw [hvv] at hmax
          exact hmax htgt.symm
        · have hjge : v ≤ j := by omega
          rw [excess_eq_E s j (by omega)] at hj2
          have := hfloor (j + 1) (by omega) (by omega)
          omega
      subst hjv
      simp only []
      have hvv : v - 1 + 1 = v := by omega
      rw [hvv]
      rw [if_pos hv]

/-- The minimum excess strictly inside a matched pair equals the excess of
the opening parenthesis. -/
theorem min_inside (s : List Bool) (v c : Nat) (hvc : v + 2 ≤ c)
    (hcn : c < s.length) (hEc : E s c = E s (v + 1))
    (hint : ∀ k, v + 1 ≤ k → k ≤ c → E s (v + 1) ≤ E s k) :
    lmin (excList s (v + 1) (c - 1)) = E s (v + 1) := by
  apply le_antisymm
  · have h1 := lmin_excList_le s (v + 1) (c - 1) (by omega) (c - 1) (by omega) (le_refl _)
    rw [excess_eq_E s (c - 1) (by omega)] at h1
    have h2 : c - 1 + 1 = c := by omega
    rw [h2, hEc] at h1
    exact h1
  · obtain ⟨k, hk1, hk2, hk3⟩ := lmin_excList_attained s (v + 1) (c - 1) (by omega)
    rw [← hk3, excess_eq_E s k (by omega)]
    exact hint (k + 1) (by omega) (by omega)

/-- Bundle of facts used about a non-leaf node: its opening bit, the
matched closing position and the excess floor between them. -/
theorem nonleaf_setup (s : List Bool) (ht : isTree s) (v deg : Nat)
    (hv : paren s v = true) (hvn : v < s.length)
    (hdeg : degree s v = some deg) (hdpos : 0 < deg) :
    ∃ c, close s v = some c ∧ v + 2 ≤ c ∧ c < s.length ∧
      paren s (v + 1) = true ∧
      E s (c + 1) = E s (v + 1) - 1 ∧ E s c = E s (v + 1) ∧
      (∀ k, v + 1 ≤ k → k ≤ c → E s (v + 1) ≤ E s k) ∧
      checkrange s (v + 1) (c - 1) = true ∧
      deg = (excList s (v + 1) (c - 1)).count (lmin (excList s (v + 1) (c - 1))) := by
  obtain ⟨hb, hroot⟩ := ht
  obtain ⟨hn, heven, _, _, hp0, hplast⟩ := balanced_facts s hb
  have hn2 : 2 ≤ s.length := by omega
  have hleaf : isleafB s v = false := by
    cases hlf : isleafB s v
    · rfl
    · exfalso
      unfold degree at hdeg
      rw [hlf] at hdeg
      simp at hdeg
      omega
  have hvne : v ≠ s.length - 1 := by
    intro he
    rw [he, hplast] at hv
    exact absurd hv (by simp)
  have hv1n : v + 1 < s.length := by omega
  have hpv1 : paren s (v + 1) = true := by
    unfold isleafB at hleaf
    rw [paren_getD, List.getD_eq_getElem?_getD, List.getElem?_eq_getElem hv1n]
    rw [List.get?_eq_getElem?, List.getElem?_eq_getElem hv1n] at hleaf
    cases hbit : s[v + 1]
    · rw [hbit] at hleaf
      exact absurd hleaf (by simp)
    · rfl
  obtain ⟨c, hc, hc1, hc2, hc3, hc4, hc5, hc6⟩ := close_spec s hb v hv hvn
  have hcv2 : v + 2 ≤ c := by
    by_contra h
    have hcev : c = v + 1 := by omega
    have hstep := E_succ_of_paren s (v + 1) hpv1 hv1n
    rw [hcev] at hc3
    omega
  have hchk : checkrange s (v + 1) (c - 1) = true := by
    unfold checkrange
    simp only [Bool.and_eq_true, decide_eq_true_eq]
    omega
  have hdegval : deg =
      (excList s (v + 1) (c - 1)).count (lmin (excList s (v + 1) (c - 1))) := by
    unfold degree at hdeg
    rw [if_neg (by simp [hleaf])] at hdeg
    rw [hc] at hdeg
    simp only [] at hdeg
    unfold countmin at hdeg
    rw [if_pos hchk] at hdeg
    injection hdeg with hd
    exact hd.symm
  exact ⟨c, hc, hcv2, hc2, hpv1, hc3, hc4, hc6, hchk, hdegval⟩

/-- A successful `close` implies the position held '('. -/
theorem close_some_paren (s : List Bool) (d cd : Nat)
    (h : close s d = some cd) : paren s d = true := by
  unfold close at h
  by_cases hp : paren s d = true
  · exact hp
  · rw [if_neg hp] at h
    exact absurd h (by simp)

/-- Invariant of the forward argmin scan: starting from a seen prefix
whose leftmost minimum is recorded, the scan answers the leftmost minimum
of the full list. -/
theorem argminGo_spec :
    ∀ (rest pre : List ℤ) (best : Nat), best < pre.length →
      (∀ d, d < pre.length → pre.getD best 0 ≤ pre.getD d 0) →
      (∀ d, d < best → pre.getD best 0 < pre.getD d 0) →
      ∃ r, argminGo rest pre.length best (pre.getD best 0) = r ∧
        r < (pre ++ rest).length ∧
        (∀ d, d < (pre ++ rest).length →
          (pre ++ rest).getD r 0 ≤ (pre ++ rest).getD d 0) ∧
        (∀ d, d < r → (pre ++ rest).getD r 0 < (pre ++ rest).getD d 0) := by
  intro rest
  induction rest with
  | nil =>
    intro pre best hbest hle hstrict
    refine ⟨best, rfl, ?_, ?_, ?_⟩
    · rw [List.append_nil]
      exact hbest
    · rw [List.append_nil]
      exact hle
    · rw [List.append_nil]
      exact hstrict
  | cons v2 t ih =>
    intro pre best hbest hle hstrict
    have hpre2 : (pre ++ [v2]).length = pre.length + 1 := by
      rw [List.length_append]
      rfl
    have hgv2 : (pre ++ [v2]).getD pre.length 0 = v2 := by
      rw [List.getD_append_right pre [v2] 0 pre.length (le_refl _)]
      simp
    have hgold : ∀ d, d < pre.length → (pre ++ [v2]).getD d 0 = pre.getD d 0 :=
      fun d hd => List.getD_append pre [v2] 0 d hd
    have hassoc : (pre ++ [v2]) ++ t = pre ++ (v2 :: t) := by
      rw [List.append_assoc]
      rfl
    by_cases hv : v2 < pre.getD best 0
    · have hspec := ih (pre ++ [v2]) pre.length (by omega) ?_ ?_
      · obtain ⟨r, hr, h1, h2, h3⟩ := hspec
        rw [hgv2, hpre2] at hr
        rw [hassoc] at h1 h2 h3
        refine ⟨r, ?_, h1, h2, h3⟩
        have heq : argminGo (v2 :: t) pre.length best (pre.getD best 0) =
            if v2 < pre.getD best 0 then argminGo t (pre.length + 1) pre.length v2
            else argminGo t (pre.length + 1) best (pre.getD best 0) := rfl
        rw [heq, if_pos hv]
        exact hr
      · intro d hd
        rw [hpre2] at hd
        rw [hgv2]
        by_cases hdp : d < pre.length
        · rw [hgold d hdp]
          have := hle d hdp
          omega
        · have : d = pre.length := by omega
          rw [this, hgv2]
      · intro d hd
        rw [hgv2, hgold d (by omega)]
        have := hle d (by omega)
        omega
    · have hspec := ih (pre ++ [v2]) best (by omega) ?_ ?_
      · obtain ⟨r, hr, h1, h2, h3⟩ := hspec
        rw [hgold best hbest, hpre2] at hr
        rw [hassoc] at h1 h2 h3
        refine ⟨r, ?_, h1, h2, h3⟩
        have heq : argminGo (v2 :: t) pre.length best (pre.getD best 0) =
            if v2 < pre.getD best 0 then argminGo t (pre.length + 1) pre.length v2
            else argminGo t (pre.length + 1) best (pre.getD best 0) := rfl
        rw [heq, if_neg hv]
        exact hr
      · intro d hd
        rw [hpre2] at hd
        rw [hgold best hbest]
        by_cases hdp : d < pre.length
        · rw [hgold d hdp]
          exact hle d hdp
        · have : d = pre.length := by omega
          rw [this, hgv2]
          omega
      · intro d hd
        rw [hgold best hbest, hgold d (by omega)]
        exact hstrict d hd

/-- The source `argmin` answers the index of the leftmost minimum. -/
theorem argmin_spec (v : ℤ) (rest : List ℤ) :
    ∃ r, argmin (v :: rest) = some r ∧ r < (v :: rest).length ∧
      (∀ d, d < (v :: rest).length →
        (v :: rest).getD r 0 ≤ (v :: rest).getD d 0) ∧
      (∀ d, d < r → (v :: rest).getD r 0 < (v :: rest).getD d 0) := by
  have h := argminGo_spec rest [v] 0 (by simp) ?_ ?_
  · obtain ⟨r, hr, h1, h2, h3⟩ := h
    refine ⟨r, ?_, ?_, ?_, ?_⟩
    · unfold argmin
      rw [← hr]
      rfl
    · rw [← List.singleton_append]
      exact h1
    · rw [← List.singleton_append]
      exact h2
    · rw [← List.singleton_append]
      exact h3
  · intro d hd
    have : d = 0 := by simp at hd; omega
    rw [this]
  · intro d hd
    omega

/-- The source `firstmin` answers the position in `[p, q]` of the
leftmost minimum of the excess. -/
theorem firstmin_spec (s : List Bool) (p q : Nat) (hp : p < s.length)
    (hq : q < s.length) (hpq : p ≤ q) :
    ∃ m, firstmin s p q = some m ∧ p ≤ m ∧ m ≤ q ∧
      (∀ z, p ≤ z → z ≤ q → excess s m ≤ excess s z) ∧
      (∀ z, p ≤ z → z < m → excess s m < excess s z) := by
  have hchk : checkrange s p q = true := by
    unfold checkrange
    simp only [Bool.and_eq_true, decide_eq_true_eq]
    omega
  cases hl : excList s p q with
  | nil => exact absurd hl (excList_ne_nil s p q hpq)
  | cons v rest =>
    obtain ⟨r, hr, h1, h2, h3⟩ := argmin_spec v rest
    have hlen : (v :: rest).length = q + 1 - p := by
      rw [← hl]
      exact excList_length s p q
    have hget : ∀ d, d < q + 1 - p → (v :: rest).getD d 0 = excess s (p + d) := by
      intro d hd
      rw [← hl]
      exact excList_getD s p q d hd
    refine ⟨p + r, ?_, by omega, by omega, ?_, ?_⟩
    · unfold firstmin
      rw [if_pos hchk, hl, hr]
      rfl
    · intro z hz1 hz2
      have hzr : (v :: rest).getD (z - p) 0 = excess s z := by
        rw [hget (z - p) (by omega)]
        congr 1
        omega
      rw [← hzr, ← hget r (by omega)]
      exact h2 (z - p) (by omega)
    · intro z hz1 hz2
      have hzr : (v :: rest).getD (z - p) 0 = excess s z := by
        rw [hget (z - p) (by omega)]
        congr 1
        omega
      rw [← hzr, ← hget r (by omega)]
      exact h3 (z - p) (by omega)

/-- The floor anchor below a position `m`: the opening parenthesis `g` of
the innermost pair whose level equals the running minimum at `m`; `g`
opens to level `E(m+1)`, the prefix sums between `g` and `m` never dip
below that level, and either `g` is the root or the prefix sum just
before `g` sits one lower. -/
theorem floor_anchor (s : List Bool) (ht : isTree s) (m : Nat)
    (hm : m ≤ s.length - 2) (he : 1 ≤ E s (m + 1)) :
    ∃ g, scanBwd s (E s (m + 1) - 1) (m + 1) =
        (if g = 0 then none else some (g - 1)) ∧
      paren s g = true ∧ g ≤ m ∧ E s (g + 1) = E s (m + 1) ∧
      (g = 0 ∨ E s g = E s (m + 1) - 1) ∧
      (∀ k, g + 1 ≤ k → k ≤ m + 1 → E s (m + 1) ≤ E s k) := by
  obtain ⟨hb, hroot⟩ := ht
  obtain ⟨hn, heven, _, _, hp0, hplast⟩ := balanced_facts s hb
  have hn2 : 2 ≤ s.length := by omega
  have hE1 : E s 1 = 1 := by
    have h := E_succ_of_paren s 0 hp0 (by omega)
    rw [E_zero] at h
    simpa using h
  cases hscan : scanBwd s (E s (m + 1) - 1) (m + 1) with
  | none =>
    have hnone := scanBwd_none s (E s (m + 1) - 1) (m + 1) hscan
    have hfloor : ∀ k, 1 ≤ k → k ≤ m + 1 → E s (m + 1) - 1 < E s k := by
      apply E_gt_bwd s (E s (m + 1) - 1) 1 (m + 1) (by omega) (by omega)
      intro k hk1 hk2
      have := hnone (k - 1) (by omega)
      rw [excess_eq_E s (k - 1) (by omega)] at this
      have hkk : k - 1 + 1 = k := by omega
      rw [hkk] at this
      exact this
    have hone : E s (m + 1) = 1 := by
      have := hfloor 1 (le_refl _) (by omega)
      omega
    refine ⟨0, by simp, hp0, by omega, by simpa [hE1] using hone.symm, Or.inl rfl, ?_⟩
    intro k hk1 hk2
    have := hfloor k (by omega) hk2
    omega
  | some j =>
    obtain ⟨hj1, hj2, hj3⟩ := scanBwd_some s (E s (m + 1) - 1) (m + 1) j hscan
    rw [excess_eq_E s j (by omega)] at hj2
    have hjm : j + 1 ≠ m + 1 := by
      intro he2
      rw [he2] at hj2
      omega
    have hfloor : ∀ k, j + 2 ≤ k → k ≤ m + 1 → E s (m + 1) - 1 < E s k := by
      apply E_gt_bwd s (E s (m + 1) - 1) (j + 2) (m + 1) (by omega) (by omega)
      intro k hk1 hk2
      have := hj3 (k - 1) (by omega) (by omega)
      rw [excess_eq_E s (k - 1) (by omega)] at this
      have hkk : k - 1 + 1 = k := by omega
      rw [hkk] at this
      exact this
    have hgstep : E s (j + 2) = E s (j + 1) + 1 ∧ paren s (j + 1) = true := by
      have hin : E s (m + 1) - 1 < E s (j + 2) := hfloor (j + 2) (le_refl _) (by omega)
      rcases E_step_cases s (j + 1) (by omega) with ⟨hp2, hs2⟩ | ⟨hp2, hs2⟩
      · exact ⟨hs2, by rw [paren_getD]; exact hp2⟩
      · exfalso
        rw [hs2] at hin
        omega
    refine ⟨j + 1, by simp [hscan], hgstep.2, by omega, ?_, ?_, ?_⟩
    · have hjj : E s (j + 1 + 1) = E s (j + 2) := rfl
      have hin : E s (m + 1) - 1 < E s (j + 2) := hfloor (j + 2) (le_refl _) (by omega)
      have hub : E s (j + 2) = E s (j + 1) + 1 := hgstep.1
      omega
    · right
      simpa using hj2
    · intro k hk1 hk2
      have := hfloor k (by omega) hk2
      omega

/-- The source `isancestor` decides subtree containment, given the
closing position. -/
theorem isanc_iff (s : List Bool) (a b ca : Nat) (hca : close s a = some ca) :
    isancestorB s a b = .ok true ↔ (a ≤ b ∧ b < ca) := by
  unfold isancestorB
  by_cases hab : a ≤ b
  · rw [if_pos hab, hca]
    simp only []
    constructor
    · intro h
      injection h with h2
      exact ⟨hab, of_decide_eq_true h2⟩
    · intro h
      rw [decide_eq_true h.2]
  · rw [if_neg hab]
    constructor
    · intro h
      injection h with h2
      exact absurd h2 (by simp)
    · intro h
      exact absurd h.1 hab

/-- The negative form of `isancestor`, needed to drive `lca` into its
range branch. -/
theorem isanc_false (s : List Bool) (a b ca : Nat) (hca : close s a = some ca)
    (h : ¬(a ≤ b ∧ b < ca)) : isancestorB s a b = .ok false := by
  unfold isancestorB
  by_cases hab : a ≤ b
  · rw [if_pos hab, hca]
    simp only []
    have hnb : ¬b < ca := fun hc => h ⟨hab, hc⟩
    rw [decide_eq_false hnb]
  · rw [if_neg hab]

/-- The heart of the lca range branch: for non-nested `p < q` (with
`close p` not reaching past `q`) the leftmost-minimum position `m` of
`[p, q]` has '(' right after it, its parent is a node `g` at or before
`p` whose subtree spans past `q`, and no node strictly between `g` and
`p` spans past `q`. -/
theorem lca_inner (s : List Bool) (ht : isTree s) (p q cp : Nat)
    (hpp : paren s p = true) (hpq : paren s q = true) (hlt : p < q)
    (hqn : q < s.length) (hcp : close s p = some cp) (hcpq : cp ≤ q) :
    ∃ m g cg, firstmin s p q = some m ∧ paren s (1 + m) = true ∧
      parent s (1 + m) = .ok (some g) ∧ paren s g = true ∧ g ≤ p ∧
      close s g = some cg ∧ q < cg ∧ cg < s.length ∧
      (∀ d cd, g < d → d ≤ p → close s d = some cd → cd ≤ q) := by
  obtain ⟨hb, hroot⟩ := ht
  obtain ⟨hn, heven, _, _, hp0, hplast⟩ := balanced_facts s hb
  have hn2 : 2 ≤ s.length := by omega
  have hpn : p < s.length := by omega
  have hqne : q ≠ s.length - 1 := by
    intro he
    rw [he, hplast] at hpq
    exact absurd hpq (by simp)
  have hq2 : q ≤ s.length - 2 := by omega
  obtain ⟨cp2, hcp2, hcp1, hcpn, hcpE, hcpEc, hcppar, hcpint⟩ :=
    close_spec s hb p hpp hpn
  have hcpeq : cp2 = cp := Option.some.inj (hcp2.symm.trans hcp)
  rw [hcpeq] at hcp1 hcpn hcpE hcpEc hcppar hcpint
  obtain ⟨m, hm, hmp, hmq, hminle, hstrict⟩ := firstmin_spec s p q hpn hqn (by omega)
  have hmlt : m < s.length := by omega
  have hexm : excess s m = E s (m + 1) := excess_eq_E s m hmlt
  have hexcp : excess s cp = E s (p + 1) - 1 := by
    rw [excess_eq_E s cp hcpn]
    exact hcpE
  have hcp_in : E s (m + 1) ≤ E s (p + 1) - 1 := by
    have h := hminle cp (by omega) hcpq
    rw [hexm, hexcp] at h
    exact h
  have hmnep : m ≠ p := by
    intro he
    rw [he] at hcp_in
    omega
  have hpm : p < m := by omega
  have hstepq : E s (q + 1) = E s q + 1 := E_succ_of_paren s q hpq hqn
  have hmq2 : m < q := by
    by_contra h
    have hmqe : m = q := by omega
    have h2 := hminle (q - 1) (by omega) (by omega)
    rw [hexm, excess_eq_E s (q - 1) (by omega)] at h2
    have hq1 : q - 1 + 1 = q := by omega
    rw [hq1, hmqe] at h2
    omega
  have hpm1 : paren s (m + 1) = true := by
    have hin : E s (m + 1) ≤ E s (m + 1 + 1) := by
      have h := hminle (m + 1) (by omega) (by omega)
      rw [hexm, excess_eq_E s (m + 1) (by omega)] at h
      exact h
    rcases E_step_cases s (m + 1) (by omega) with ⟨hp2, _⟩ | ⟨_, hs2⟩
    · rw [paren_getD]
      exact hp2
    · exfalso
      omega
  have hestar : 1 ≤ E s (m + 1) :=
    tree_interior s ⟨hb, hroot⟩ (m + 1) (by omega) (by omega)
  obtain ⟨g, hganchor, hgpar, hgm, hgE, hgdisj, hfloorA⟩ :=
    floor_anchor s ⟨hb, hroot⟩ m (by omega) hestar
  have hgp : g ≤ p := by
    by_contra h
    have hg1 : 1 ≤ g := by omega
    have hEg : E s g = E s (m + 1) - 1 := by
      rcases hgdisj with h0 | hE
      · omega
      · exact hE
    have h2 := hminle (g - 1) (by omega) (by omega)
    rw [hexm, excess_eq_E s (g - 1) (by omega)] at h2
    have hgg : g - 1 + 1 = g := by omega
    rw [hgg] at h2
    omega
  have hparent : parent s (m + 1) = .ok (some g) := by
    apply parent_of_inner s ⟨hb, hroot⟩ g (m + 1) hgpar hpm1 (by omega) (by omega)
      hgE.symm
    intro k hk1 hk2
    rw [hgE]
    exact hfloorA k hk1 hk2
  obtain ⟨cg, hcg, hcg1, hcgn, hcgE, hcgEc, hcgpar, hcgint⟩ :=
    close_spec s hb g hgpar (by omega)
  have hcgq : q < cg := by
    by_contra h
    have hcgle : cg ≤ q := by omega
    have hExcg : E s (cg + 1) = E s (m + 1) - 1 := by
      rw [hcgE, hgE]
    rcases Nat.lt_or_ge cg (m + 1) with hlt2 | hge2
    · have := hfloorA (cg + 1) (by omega) (by omega)
      omega
    · have h3 := hminle cg (by omega) hcgle
      rw [hexm, excess_eq_E s cg hcgn] at h3
      omega
  refine ⟨m, g, cg, hm, ?_, ?_, hgpar, hgp, hcg, hcgq, hcgn, ?_⟩
  · have h1m : 1 + m = m + 1 := by omega
    rw [h1m]
    exact hpm1
  · have h1m : 1 + m = m + 1 := by omega
    rw [h1m]
    exact hparent
  · intro d cd hgd hdp hcd
    have hdpar : paren s d = true := close_some_paren s d cd hcd
    have hdn : d < s.length := by omega
    by_contra hcontra
    have hqcd : q < cd := by omega
    have hEd : E s (m + 1) ≤ E s d := hfloorA d (by omega) (by omega)
    have hstepd : E s (d + 1) = E s d + 1 := E_succ_of_paren s d hdpar hdn
    obtain ⟨cd2, hcd2, _, _, _, _, _, hcdint⟩ := close_spec s hb d hdpar hdn
    rw [hcd] at hcd2
    injection hcd2 with hcdeq
    have hfin := hcdint (m + 1) (by omega) (by omega)
    omega

end Succinct

/-- C4: for every Navigator tree and every two nodes `a`, `b`, the
computed `lca(a, b)` is a node that is an ancestor of both (in the
source's own `isancestor` sense), no proper descendant of it is an
ancestor of both, and the operation is symmetric in its arguments. -/
theorem tree_lca_correct (s : List Bool) (ht : Succinct.isTree s) (a b : Nat)
    (hpa : Succinct.paren s a = true) (han : a < s.length)
    (hpb : Succinct.paren s b = true) (hbn : b < s.length) :
    ∃ g, Succinct.lca s a b = .ok (some g) ∧ Succinct.paren s g = true ∧
      Succinct.isancestorB s g a = .ok true ∧
      Succinct.isancestorB s g b = .ok true ∧
      (∀ d, Succinct.paren s d = true → Succinct.isancestorB s g d = .ok true →
        d ≠ g →
        ¬(Succinct.isancestorB s d a = .ok true ∧
          Succinct.isancestorB s d b = .ok true)) ∧
      Succinct.lca s a b = Succinct.lca s b a := by
  obtain ⟨hbal, hroot⟩ := ht
  obtain ⟨ca, hca, hca1, hcan, _, _, _, _⟩ := Succinct.close_spec s hbal a hpa han
  obtain ⟨cb, hcb, hcb1, hcbn, _, _, _, _⟩ := Succinct.close_spec s hbal b hpb hbn
  by_cases hab : a ≤ b ∧ b < ca
  · have hA : Succinct.isancestorB s a b = .ok true :=
      (Succinct.isanc_iff s a b ca hca).mpr hab
    have hlca : Succinct.lca s a b = .ok (some a) := by
      unfold Succinct.lca
      rw [hA]
    have hlca2 : Succinct.lca s b a = .ok (some a) := by
      unfold Succinct.lca
      by_cases hba : b ≤ a ∧ a < cb
      · have heq : a = b := le_antisymm hab.1 hba.1
        rw [(Succinct.isanc_iff s b a cb hcb).mpr hba, heq]
      · rw [Succinct.isanc_false s b a cb hcb hba, hA]
    refine ⟨a, hlca, hpa, ?_, hA, ?_, by rw [hlca, hlca2]⟩
    · exact (Succinct.isanc_iff s a a ca hca).mpr ⟨le_refl a, hca1⟩
    · intro d hpd hgd hdne hcon
      have h1 := (Succinct.isanc_iff s a d ca hca).mp hgd
      have hdn : d < s.length := by omega
      obtain ⟨cd, hcd, _, _, _, _, _, _⟩ := Succinct.close_spec s hbal d hpd hdn
      have h2 := (Succinct.isanc_iff s d a cd hcd).mp hcon.1
      exact hdne (le_antisymm h2.1 h1.1)
  · by_cases hba : b ≤ a ∧ a < cb
    · have hB : Succinct.isancestorB s b a = .ok true :=
        (Succinct.isanc_iff s b a cb hcb).mpr hba
      have hA' : Succinct.isancestorB s a b = .ok false :=
        Succinct.isanc_false s a b ca hca hab
      have hlca : Succinct.lca s a b = .ok (some b) := by
        unfold Succinct.lca
        rw [hA']
        simp only []
        rw [hB]
      have hlca2 : Succinct.lca s b a = .ok (some b) := by
        unfold Succinct.lca
        rw [hB]
      refine ⟨b, hlca, hpb, hB, ?_, ?_, by rw [hlca, hlca2]⟩
      · exact (Succinct.isanc_iff s b b cb hcb).mpr ⟨le_refl b, hcb1⟩
      · intro d hpd hgd hdne hcon
        have h1 := (Succinct.isanc_iff s b d cb hcb).mp hgd
        have hdn : d < s.length := by omega
        obtain ⟨cd, hcd, _, _, _, _, _, _⟩ := Succinct.close_spec s hbal d hpd hdn
        have h2 := (Succinct.isanc_iff s d b cd hcd).mp hcon.2
        exact hdne (le_antisymm h2.1 h1.1)
    · have hA' : Succinct.isancestorB s a b = .ok false :=
        Succinct.isanc_false s a b ca hca hab
      have hB' : Succinct.isancestorB s b a = .ok false :=
        Succinct.isanc_false s b a cb hcb hba
      have hane : a ≠ b := by
        intro he
        exact hab ⟨le_of_eq he, he ▸ hca1⟩
      rcases Nat.lt_or_ge a b with hltab | hgeab
      · have hcab : ca ≤ b := by
          by_contra h
          exact hab ⟨by omega, by omega⟩
        obtain ⟨m, g, cg, hm, hparenm, hparentm, hgpar, hgp, hcg, hcgq, hcgn, hlast⟩ :=
          Succinct.lca_inner s ⟨hbal, hroot⟩ a b ca hpa hpb hltab hbn hca hcab
        have hmin1 : min a b = a := Nat.min_eq_left (le_of_lt hltab)
        have hmax1 : max a b = b := Nat.max_eq_right (le_of_lt hltab)
        have hlca : Succinct.lca s a b = .ok (some g) := by
          unfold Succinct.lca
          rw [hA']
          simp only []
          rw [hB']
          simp only []
          rw [hmin1, hmax1, hm]
          simp only []
          rw [if_pos hparenm]
          exact hparentm
        have hlca2 : Succinct.lca s b a = .ok (some g) := by
          unfold Succinct.lca
          rw [hB']
          simp only []
          rw [hA']
          simp only []
          rw [Nat.min_comm b a, Nat.max_comm b a, hmin1, hmax1, hm]
          simp only []
          rw [if_pos hparenm]
          exact hparentm
        refine ⟨g, hlca, hgpar, ?_, ?_, ?_, by rw [hlca, hlca2]⟩
        · exact (Succinct.isanc_iff s g a cg hcg).mpr ⟨hgp, by omega⟩
        · exact (Succinct.isanc_iff s g b cg hcg).mpr ⟨by omega, hcgq⟩
        · intro d hpd hgd hdne hcon
          have h1 := (Succinct.isanc_iff s g d cg hcg).mp hgd
          have hdn : d < s.length := by omega
          obtain ⟨cd, hcd, _, _, _, _, _, _⟩ := Succinct.close_spec s hbal d hpd hdn
          have h2 := (Succinct.isanc_iff s d a cd hcd).mp hcon.1
          have h3 := (Succinct.isanc_iff s d b cd hcd).mp hcon.2
          have hgd2 : g < d := by
            rcases Nat.lt_or_ge g d with h4 | h4
            · exact h4
            · exact absurd (le_antisymm h4 h1.1) hdne
          have := hlast d cd hgd2 h2.1 hcd
          omega
      · have hltba : b < a := by omega
        have hcba : cb ≤ a := by
          by_contra h
          exact hba ⟨by omega, by omega⟩
        obtain ⟨m, g, cg, hm, hparenm, hparentm, hgpar, hgp, hcg, hcgq, hcgn, hlast⟩ :=
          Succinct.lca_inner s ⟨hbal, hroot⟩ b a cb hpb hpa hltba han hcb hcba
        have hmin1 : min a b = b := Nat.min_eq_right (le_of_lt hltba)
        have hmax1 : max a b = a := Nat.max_eq_left (le_of_lt hltba)
        have hminb : min b a = b := Nat.min_eq_left (le_of_lt hltba)
        have hmaxb : max b a = a := Nat.max_eq_right (le_of_lt hltba)
        have hlca : Succinct.lca s a b = .ok (some g) := by
          unfold Succinct.lca
          rw [hA']
          simp only []
          rw [hB']
          simp only []
          rw [hmin1, hmax1, hm]
          simp only []
          rw [if_pos hparenm]
          exact hparentm
        have hlca2 : Succinct.lca s b a = .ok (some g) := by
          unfold Succinct.lca
          rw [hB']
          simp only []
          rw [hA']
          simp only []
          rw [hminb, hmaxb, hm]
          simp only []
          rw [if_pos hparenm]
          exact hparentm
        refine ⟨g, hlca, hgpar, ?_, ?_, ?_, by rw [hlca, hlca2]⟩
        · exact (Succinct.isanc_iff s g a cg hcg).mpr ⟨by omega, hcgq⟩
        · exact (Succinct.isanc_iff s g b cg hcg).mpr ⟨hgp, by omega⟩
        · intro d hpd hgd hdne hcon
          have h1 := (Succinct.isanc_iff s g d cg hcg).mp hgd
          have hdn : d < s.length := by omega
          obtain ⟨cd, hcd, _, _, _, _, _, _⟩ := Succinct.close_spec s hbal d hpd hdn
          have h2 := (Succinct.isanc_iff s d a cd hcd).mp hcon.1
          have h3 := (Succinct.isanc_iff s d b cd hcd).mp hcon.2
          have hgd2 : g < d := by
            rcases Nat.lt_or_ge g d with h4 | h4
            · exact h4
            · exact absurd (le_antisymm h4 h1.1) hdne
          have := hlast d cd hgd2 h3.1 hcd
          omega

/-- C4 witness: the lca of the two leaves of the tree "(()())" is the
root, an ancestor of both with no proper descendant enclosing both, and
symmetric in its arguments. -/
theorem tree_lca_correct_witness :
    Succinct.isTree [true, true, false, true, false, false] ∧
    Succinct.paren [true, true, false, true, false, false] 1 = true ∧
    1 < [true, true, false, true, false, false].length ∧
    Succinct.paren [true, true, false, true, false, false] 3 = true ∧
    3 < [true, true, false, true, false, false].length ∧
    ∃ g, Succinct.lca [true, true, false, true, false, false] 1 3 = .ok (some g) ∧
      Succinct.paren [true, true, false, true, false, false] g = true ∧
      Succinct.isancestorB [true, true, false, true, false, false] g 1 = .ok true ∧
      Succinct.isancestorB [true, true, false, true, false, false] g 3 = .ok true ∧
      (∀ d, Succinct.paren [true, true, false, true, false, false] d = true →
        Succinct.isancestorB [true, true, false, true, false, false] g d = .ok true →
        d ≠ g →
        ¬(Succinct.isancestorB [true, true, false, true, false, false] d 1 = .ok true ∧
          Succinct.isancestorB [true, true, false, true, false, false] d 3 = .ok true)) ∧
      Succinct.lca [true, true, false, true, false, false] 1 3 =
        Succinct.lca [true, true, false, true, false, false] 3 1 :=
  ⟨⟨by decide, by decide⟩, by decide, by decide, by decide, by decide,
    tree_lca_correct _ ⟨by decide, by decide⟩ 1 3 (by decide) (by decide)
      (by decide) (by decide)⟩

/-- C5: for every Navigator tree, every node `v` and every `k` below the
node's degree, the round trip `v.child(k).parent()` answers `v` itself:
the first child sits at `pos + 1` and the later children at
`1 + selectmin(pos + 1, close(pos) - 1, k)`, and `enclose` leads each of
them back to `v`. -/
theorem tree_child_parent_roundtrip (s : List Bool) (ht : Succinct.isTree s)
    (v k deg : Nat) (hv : Succinct.paren s v = true) (hvn : v < s.length)
    (hdeg : Succinct.degree s v = some deg) (hk : k < deg) :
    ∃ cpos, Succinct.child s v k = .ok cpos ∧
      Succinct.parent s cpos = .ok (some v) := by
  obtain ⟨c, hc, hcv2, hc2, hpv1, hc3, hc4, hc6, hchk, hdegval⟩ :=
    Succinct.nonleaf_setup s ht v deg hv hvn hdeg (by omega)
  have hmin : Succinct.lmin (Succinct.excList s (v + 1) (c - 1)) = Succinct.E s (v + 1) :=
    Succinct.min_inside s v c hcv2 hc2 hc4 hc6
  by_cases hk0 : k = 0
  · subst hk0
    refine ⟨v + 1, ?_, ?_⟩
    · unfold Succinct.child
      rw [hdeg]
      simp only []
      rw [if_neg (by omega : ¬deg ≤ 0), if_pos trivial, if_pos hpv1]
    · apply Succinct.parent_of_inner s ht v (v + 1) hv hpv1 (le_refl _) (by omega) rfl
      intro k2 h1 h2
      have hk2 : k2 = v + 1 := by omega
      rw [hk2]
  · have hk1 : 1 ≤ k := by omega
    have hcount : (k : ℤ) ≤
        ((Succinct.excList s (v + 1) (c - 1)).count
          (Succinct.lmin (Succinct.excList s (v + 1) (c - 1))) : ℤ) := by
      rw [← hdegval]
      exact_mod_cast le_of_lt hk
    obtain ⟨r, hr, hr1, hr2, hr3, hr4⟩ :=
      Succinct.kthMin_spec (Succinct.lmin (Succinct.excList s (v + 1) (c - 1)))
        (Succinct.excList s (v + 1) (c - 1)) (k : ℤ) (v + 1)
        (by exact_mod_cast hk1) hcount
    have hlen := Succinct.excList_length s (v + 1) (c - 1)
    have hrc0 : r < c := by omega
    have hexr : Succinct.excess s r = Succinct.E s (v + 1) := by
      have hg := Succinct.excList_getD s (v + 1) (c - 1) (r - (v + 1)) (by omega)
      rw [hg] at hr3
      have hidx : v + 1 + (r - (v + 1)) = r := by omega
      rw [hidx, hmin] at hr3
      exact hr3
    have hrc : r < c - 1 := by
      by_contra hge
      have hre : r = c - 1 := by omega
      have hid : r - (v + 1) + 1 = (Succinct.excList s (v + 1) (c - 1)).length := by
        rw [hlen]
        omega
      rw [hid, List.take_length, ← hdegval] at hr4
      have : (k : ℤ) = (deg : ℤ) := hr4.symm
      have : k = deg := by exact_mod_cast this
      omega
    have hrn : r < s.length := by omega
    have hstepr : Succinct.E s (r + 1) = Succinct.E s (v + 1) := by
      rw [← Succinct.excess_eq_E s r hrn]
      exact hexr
    have hfloor2 : Succinct.E s (v + 1) ≤ Succinct.E s (r + 2) :=
      hc6 (r + 2) (by omega) (by omega)
    have h1r : Succinct.paren s (r + 1) = true ∧
        Succinct.E s (r + 2) = Succinct.E s (v + 1) + 1 := by
      rcases Succinct.E_step_cases s (r + 1) (by omega) with ⟨hp2, hs2⟩ | ⟨hp2, hs2⟩
      · refine ⟨by rw [Succinct.paren_getD]; exact hp2, ?_⟩
        rw [hs2, hstepr]
      · exfalso
        rw [hs2, hstepr] at hfloor2
        omega
    obtain ⟨hpr1, hEr2⟩ := h1r
    refine ⟨r + 1, ?_, ?_⟩
    · unfold Succinct.child
      rw [hdeg]
      simp only []
      rw [if_neg (by omega : ¬deg ≤ k), if_neg hk0, hc]
      simp only []
      unfold Succinct.selectmin
      rw [if_pos hchk, hr]
      simp only []
      have hplus : 1 + r = r + 1 := by omega
      rw [hplus, if_pos hpr1]
    · apply Succinct.parent_of_inner s ht v (r + 1) hv hpr1 (by omega) (by omega) hstepr
      intro k2 h1 h2
      exact hc6 k2 h1 (by omega)

/-- C5 witness: in the tree "(()())" the root's second child sits at
position 3 and its parent is the root again. -/
theorem tree_child_parent_roundtrip_witness :
    Succinct.isTree [true, true, false, true, false, false] ∧
    Succinct.paren [true, true, false, true, false, false] 0 = true ∧
    0 < [true, true, false, true, false, false].length ∧
    Succinct.degree [true, true, false, true, false, false] 0 = some 2 ∧
    1 < 2 ∧
    ∃ cpos, Succinct.child [true, true, false, true, false, false] 0 1 = .ok cpos ∧
      Succinct.parent [true, true, false, true, false, false] cpos = .ok (some 0) :=
  ⟨⟨by decide, by decide⟩, by decide, by decide, by decide, by decide,
    tree_child_parent_roundtrip _ ⟨by decide, by decide⟩ 0 1 2 (by decide) (by decide)
      (by decide) (by decide)⟩

/-- C10 witness: the concrete source "5" — valid JSON with no structural
token — is rejected. -/
theorem json_loads_rejects_structural_free_source_witness :
    (∀ c ∈ "5".toList, PyJsonLoad.structuralTok c = false) ∧
    ((∃ e, PyJsonLoad.loads "5".toList = Except.error e) ∧
     (∀ bv2 pos2,
       PyJsonLoad.tokenizeGo ("5".toList.length + 1) "5".toList [] [] = .ok (bv2, pos2) →
       bv2 = [])) :=
  ⟨by decide, json_loads_rejects_structural_free_source "5".toList (by decide)⟩

/-!  Hu-Tucker placement order.  Whenever the constructor completes, the
codewords it hands out respect the alphabet order; what is left open is
only that the constructor completes on every text, which is the
Garsia-Wachs theorem (the leaf depths of the merge-phase tree, read back
in alphabet order, always form the depth sequence of an ordered binary
tree). -/

namespace HT

theorem div_lexLt (x y : List Bool) (h : Div x y) : lexLt x y = true := by
  obtain ⟨c, xs, ys, hx, hy⟩ := h
  subst hx hy
  induction c with
  | nil => simp [lexLt]
  | cons a c ih => simpa [lexLt] using ih

theorem div_extend_fst (x y e : List Bool) (h : Div x y) : Div (x ++ e) y := by
  obtain ⟨c, xs, ys, hx, hy⟩ := h
  subst hx hy
  exact ⟨c, xs ++ e, ys, by simp, rfl⟩

theorem div_extend_snd (x y e : List Bool) (h : Div x y) : Div x (y ++ e) := by
  obtain ⟨c, xs, ys, hx, hy⟩ := h
  subst hx hy
  exact ⟨c, xs, ys ++ e, rfl, by simp⟩

theorem div_fork (a : List Bool) : Div (a ++ [false]) (a ++ [true]) :=
  ⟨a, [], [], rfl, rfl⟩

/-- The one-symbol placement loop: from a stack of pairwise divergent
slot addresses it answers an address divergent from everything left on
the stack, and it preserves any divergence lower bound `z` held by the
whole stack. -/
theorem placeSym_div (d : Nat) :
    ∀ fuel paths dropped addr rest dr2,
    placeSym d fuel paths dropped = some (addr, rest, dr2) →
    paths.Pairwise Div →
    (addr :: rest).Pairwise Div ∧
    (∀ z, (∀ y ∈ paths, Div z y) → ∀ y ∈ addr :: rest, Div z y) := by
  intro fuel
  induction fuel with
  | zero =>
    intro paths dropped addr rest dr2 h
    cases paths with
    | nil => simp [placeSym] at h
    | cons a t => simp [placeSym] at h
  | succ fuel ih =>
    intro paths dropped addr rest dr2 h hp
    cases paths with
    | nil => simp [placeSym] at h
    | cons a t =>
      simp only [placeSym] at h
      by_cases h1 : d = a.length
      · rw [if_pos h1] at h
        simp only [Option.some.injEq, Prod.mk.injEq] at h
        obtain ⟨rfl, rfl, rfl⟩ := h
        exact ⟨hp, fun z hz => hz⟩
      · rw [if_neg h1] at h
        by_cases h2 : a.length < d
        · rw [if_pos h2] at h
          have hp2 : ((a ++ [false]) :: (a ++ [true]) :: t).Pairwise Div := by
            rcases List.pairwise_cons.mp hp with ⟨hhead, htail⟩
            refine List.pairwise_cons.mpr ⟨?_, List.pairwise_cons.mpr ⟨?_, htail⟩⟩
            · intro y hy
              rcases List.mem_cons.mp hy with rfl | hy2
              · exact div_fork a
              · exact div_extend_fst a y [false] (hhead y hy2)
            · intro y hy
              exact div_extend_fst a y [true] (hhead y hy)
          obtain ⟨hpw, hz⟩ := ih _ dropped addr rest dr2 h hp2
          refine ⟨hpw, ?_⟩
          intro z hz0
          refine hz z ?_
          intro y hy
          rcases List.mem_cons.mp hy with rfl | hy2
          · exact div_extend_snd z a [false] (hz0 a (List.mem_cons_self a t))
          · rcases List.mem_cons.mp hy2 with rfl | hy3
            · exact div_extend_snd z a [true] (hz0 a (List.mem_cons_self a t))
            · exact hz0 y (List.mem_cons_of_mem a hy3)
        · rw [if_neg h2] at h
          obtain ⟨hpw, hz⟩ := ih _ true addr rest dr2 h (List.pairwise_cons.mp hp).2
          refine ⟨hpw, ?_⟩
          intro z hz0
          exact hz z (fun y hy => hz0 y (List.mem_cons_of_mem a hy))

/-- The placement loop over the whole alphabet: the keys of the answered
table are the symbols in order, and the recorded addresses are pairwise
divergent; any divergence lower bound of the incoming stack bounds every
recorded address. -/
theorem placeAll_div (dmap : List (Nat × Nat)) :
    ∀ syms paths dropped fuel codes,
    placeAll dmap syms paths dropped fuel = some codes →
    paths.Pairwise Div →
    codes.map Prod.fst = syms ∧
    codes.Pairwise (fun p q => Div p.2 q.2) ∧
    (∀ z, (∀ y ∈ paths, Div z y) → ∀ p ∈ codes, Div z p.2) := by
  intro syms
  induction syms with
  | nil =>
    intro paths dropped fuel codes h hp
    simp only [placeAll] at h
    split at h
    · injection h with h
      subst h
      refine ⟨rfl, List.Pairwise.nil, ?_⟩
      intro z _ p hp2
      exact absurd hp2 (List.not_mem_nil p)
    · exact Option.noConfusion h
  | cons sym syms ih =>
    intro paths dropped fuel codes h hp
    simp only [placeAll] at h
    cases hps : placeSym ((dmap.lookup sym).getD 0) fuel paths dropped with
    | none =>
      rw [hps] at h
      simp only [] at h
      exact Option.noConfusion h
    | some trip =>
      obtain ⟨addr, paths2, dr2⟩ := trip
      rw [hps] at h
      simp only [] at h
      cases hpa : placeAll dmap syms paths2 dr2 fuel with
      | none =>
        rw [hpa] at h
        exact Option.noConfusion h
      | some rest =>
        rw [hpa] at h
        simp only [Option.map_some'] at h
        injection h with h
        subst h
        obtain ⟨hpw, hz⟩ :=
          placeSym_div ((dmap.lookup sym).getD 0) fuel paths dropped addr paths2 dr2 hps hp
        rcases List.pairwise_cons.mp hpw with ⟨hhead, htail⟩
        obtain ⟨hm, hpw2, hz2⟩ := ih paths2 dr2 fuel rest hpa htail
        refine ⟨by simp [hm], ?_, ?_⟩
        · refine List.pairwise_cons.mpr ⟨?_, hpw2⟩
          intro q hq
          exact hz2 addr hhead q hq
        · intro z hz0 p hpmem
          have hz1 : ∀ y ∈ addr :: paths2, Div z y := hz z hz0
          rcases List.mem_cons.mp hpmem with rfl | hpm2
          · exact hz1 addr (List.mem_cons_self addr paths2)
          · exact hz2 z (fun y hy => hz1 y (List.mem_cons_of_mem addr hy)) p hpm2

/-- A completed constructor lists the sorted alphabet as the table's keys
and records pairwise divergent codewords. -/
theorem huTucker_codes (text : List Nat) (codes : List (Nat × List Bool))
    (h : huTucker text = some codes) (hne : text ≠ []) :
    codes.map Prod.fst = sortedAlphabet text ∧
    codes.Pairwise (fun p q => Div p.2 q.2) := by
  unfold huTucker at h
  rw [if_neg hne] at h
  simp only [] at h
  split at h
  · exact Option.noConfusion h
  · obtain ⟨hm, hpw, _⟩ := placeAll_div _ _ _ _ _ _ h (by simp)
    exact ⟨hm, hpw⟩

theorem insNat_eq_orderedInsert (x : Nat) (l : List Nat) :
    insNat x l = List.orderedInsert (fun m n => m ≤ n) x l := by
  induction l with
  | nil => rfl
  | cons y ys ih =>
    unfold insNat List.orderedInsert
    rw [ih]

theorem sortedAlphabet_eq_insertionSort (text : List Nat) :
    sortedAlphabet text = List.insertionSort (fun m n => m ≤ n) text.dedup := by
  unfold sortedAlphabet
  induction text.dedup with
  | nil => rfl
  | cons y ys ih =>
    simp only [List.foldr_cons, List.insertionSort]
    rw [ih, insNat_eq_orderedInsert]

theorem sortedAlphabet_sorted_lt (text : List Nat) :
    (sortedAlphabet text).Pairwise (· < ·) := by
  have hs : (sortedAlphabet text).Pairwise (fun m n => m ≤ n) := by
    rw [sortedAlphabet_eq_insertionSort]
    exact List.sorted_insertionSort _ _
  have hn : (sortedAlphabet text).Pairwise (· ≠ ·) := by
    rw [sortedAlphabet_eq_insertionSort]
    exact (List.Perm.nodup_iff (List.perm_insertionSort _ _)).mpr (List.nodup_dedup text)
  exact (hs.and hn).imp (fun h => lt_of_le_of_ne h.1 h.2)

theorem mem_sortedAlphabet (text : List Nat) (a : Nat) (ha : a ∈ text) :
    a ∈ sortedAlphabet text := by
  rw [sortedAlphabet_eq_insertionSort, (List.perm_insertionSort _ _).mem_iff]
  exact List.mem_dedup.mpr ha

theorem lookup_cons_self (k : Nat) (v : List Bool) (t : List (Nat × List Bool)) :
    List.lookup k ((k, v) :: t) = some v := by
  simp [List.lookup]

theorem lookup_cons_ne (a k : Nat) (v : List Bool) (t : List (Nat × List Bool))
    (h : a ≠ k) : List.lookup a ((k, v) :: t) = List.lookup a t := by
  simp only [List.lookup]
  rw [show (a == k) = false from by simpa using h]

theorem lookup_of_mem_keys (a : Nat) :
    ∀ l : List (Nat × List Bool), a ∈ l.map Prod.fst →
    ∃ ca, l.lookup a = some ca ∧ (a, ca) ∈ l := by
  intro l
  induction l with
  | nil => intro h; simp at h
  | cons p t ih =>
    obtain ⟨k, v⟩ := p
    intro h
    by_cases hk : k = a
    · subst hk
      exact ⟨v, lookup_cons_self k v t, List.mem_cons_self _ _⟩
    · have h2 : a ∈ t.map Prod.fst := by
        simp only [List.map_cons, List.mem_cons] at h
        rcases h with h | h
        · exact absurd h.symm hk
        · exact h
      obtain ⟨ca, hca, hmem⟩ := ih h2
      refine ⟨ca, ?_, List.mem_cons_of_mem _ hmem⟩
      rw [lookup_cons_ne a k v t (fun e => hk e.symm)]
      exact hca

/-- In a table with strictly increasing keys and pairwise divergent
codewords, the looked-up codewords of two keys `a < b` diverge. -/
theorem codes_lookup_div (a b : Nat) :
    ∀ l : List (Nat × List Bool),
    l.Pairwise (fun p q => Div p.2 q.2) →
    (l.map Prod.fst).Pairwise (· < ·) →
    a ∈ l.map Prod.fst → b ∈ l.map Prod.fst → a < b →
    ∃ ca cb, l.lookup a = some ca ∧ l.lookup b = some cb ∧ Div ca cb := by
  intro l
  induction l with
  | nil => intro _ _ ha; simp at ha
  | cons p t ih =>
    obtain ⟨k, v⟩ := p
    intro hdiv hsort ha hb hab
    simp only [List.map_cons] at hsort ha hb
    rcases List.pairwise_cons.mp hdiv with ⟨hdhead, hdtail⟩
    rcases List.pairwise_cons.mp hsort with ⟨hshead, hstail⟩
    by_cases hka : k = a
    · subst hka
      have hbt : b ∈ t.map Prod.fst := by
        rcases List.mem_cons.mp hb with heq | h2
        · rw [heq] at hab
          exact absurd hab (lt_irrefl k)
        · exact h2
      obtain ⟨cb, hcb, hcbmem⟩ := lookup_of_mem_keys b t hbt
      refine ⟨v, cb, lookup_cons_self k v t, ?_, ?_⟩
      · rw [lookup_cons_ne b k v t (ne_of_gt hab)]
        exact hcb
      · exact hdhead (b, cb) hcbmem
    · have hat : a ∈ t.map Prod.fst := by
        rcases List.mem_cons.mp ha with heq | h2
        · exact absurd heq.symm hka
        · exact h2
      have hkb : k ≠ b := by
        intro e
        exact absurd (e ▸ hshead a hat) (lt_asymm hab)
      have hbt : b ∈ t.map Prod.fst := by
        rcases List.mem_cons.mp hb with heq | h2
        · exact absurd heq.symm hkb
        · exact h2
      obtain ⟨ca, cb, h1, h2, h3⟩ := ih hdtail hstail hat hbt hab
      refine ⟨ca, cb, ?_, ?_, h3⟩
      · rw [lookup_cons_ne a k v t (fun e => hka e.symm)]
        exact h1
      · rw [lookup_cons_ne b k v t (fun e => hkb e.symm)]
        exact h2

/-- Hu-Tucker order, the placement half: whenever the constructor
completes (the placement loop consumes the slot stack exactly), the
codeword table lists the sorted alphabet in order and the codewords of
any two training symbols `a < b` satisfy `codeword a < codeword b` in
the lexicographic order on bit strings.  The half left open is that the
constructor completes on every text: that is the Garsia-Wachs theorem. -/
theorem hutucker_order_of_success (text : List Nat) (codes : List (Nat × List Bool))
    (h : huTucker text = some codes) (a b : Nat)
    (ha : a ∈ text) (hb : b ∈ text) (hab : a < b) :
    ∃ ca cb, codes.lookup a = some ca ∧ codes.lookup b = some cb ∧
      lexLt ca cb = true := by
  have hne : text ≠ [] := fun e => by
    subst e
    exact absurd ha (List.not_mem_nil a)
  obtain ⟨hmap, hdiv⟩ := huTucker_codes text codes h hne
  have hsort : (codes.map Prod.fst).Pairwise (· < ·) := by
    rw [hmap]
    exact sortedAlphabet_sorted_lt text
  have hma : a ∈ codes.map Prod.fst := by
    rw [hmap]
    exact mem_sortedAlphabet text a ha
  have hmb : b ∈ codes.map Prod.fst := by
    rw [hmap]
    exact mem_sortedAlphabet text b hb
  obtain ⟨ca, cb, h1, h2, h3⟩ := codes_lookup_div a b codes hdiv hsort hma hmb hab
  exact ⟨ca, cb, h1, h2, div_lexLt ca cb h3⟩

end HT
